import Mathlib

/-!
Verification of the file-selection and serialization pipeline of the
project-documenter repository (src/extractor.py, src/utils.py, src/gui.py,
src/main.py).

The Python sources are shallowly embedded:
  * a filesystem snapshot is the inductive type `FS` (a sibling-encoded list
    of directory entries, as returned by os.scandir); file contents are byte
    lists (`List Nat`), with a single `accessible`/`readable` flag modelling
    any per-entry OS error (stat or open raising PermissionError/OSError);
  * `is_text_file` embeds utils.is_text_file (null-byte sniff on the first
    1024 bytes, then a strict UTF-8 decode of the sample);
  * `scan_repository` embeds RepoExtractor.scan_repository, including the
    os.walk traversal with directory pruning, the excluded-folders check,
    the splitext extension filter, the size filter and the final sort;
  * `extract_files_content` and the three output encoders embed the
    corresponding RepoExtractor methods; json.dumps(..., indent=2) is
    embedded at the fixed document shape built by _format_json, together
    with its ensure_ascii string escaper, and an independent JSON reader is
    defined to state the round-trip property.
-/

namespace Repo

/-! ## Characters and code-point lexicographic comparison

Python compares str values by code-point lexicographic order; `lexLe` is that
order on the underlying character lists, written as a Bool-valued function so
that concrete scans evaluate inside the kernel. It is related to Mathlib's
order on `String` below.
-/

/-- Code-point lexicographic (non-strict) comparison of character lists. -/
def lexLe : List Char → List Char → Bool
  | [], _ => true
  | _ :: _, [] => false
  | a :: as, b :: bs => if a < b then true else if a = b then lexLe as bs else false

/-! ## String helpers mirroring os.path and str methods -/

/-- Auxiliary for `startswith`: is the first list a prefix of the second. -/
def startsAux : List Char → List Char → Bool
  | [], _ => true
  | _ :: _, [] => false
  | p :: ps, s :: ss => p == s && startsAux ps ss

/-- Python s.startswith(p). -/
def startswith (s p : String) : Bool := startsAux p.data s.data

/-- Relative path of an entry called name inside the directory whose
relative path is rel; the scan root itself has relative path "". This is
what os.path.relpath(os.path.join(root, name), repo_path) yields during the
walk, with forward-slash separators. -/
def childRel (rel name : String) : String :=
  if rel = "" then name else rel ++ "/" ++ name

/-- The extension part of os.path.splitext applied to a bare file name: the
suffix starting at the last dot, unless every character before that dot is
itself a dot (leading dots never begin an extension, so ".bashrc" has none). -/
def splitextExt (name : String) : String :=
  let cs := name.data
  let afterRev := cs.reverse.takeWhile (fun c => c ≠ '.')
  if afterRev.length = cs.length then ""
  else if (cs.take (cs.length - afterRev.length - 1)).all (fun c => c = '.') then ""
  else String.mk ('.' :: afterRev.reverse)

/-- Python str.lower; Char.toLower agrees with it on the ASCII extensions
the scanner compares. -/
def lowerStr (s : String) : String := String.mk (s.data.map Char.toLower)

/-- Join path segments with forward slashes; the empty list denotes the
scan root and joins to the empty relative path. -/
def joinSegs : List String → String
  | [] => ""
  | [a] => a
  | a :: rest => a ++ "/" ++ joinSegs rest

/-- Fold `childRel` along a list of directory segments. -/
def pathUnder (rel : String) (segs : List String) : String :=
  segs.foldl childRel rel

/-! ## Text detection (utils.is_text_file) -/

/-- One UTF-8 continuation byte. -/
def utf8Cont (b : Nat) : Bool := 128 ≤ b && b ≤ 191

/-- Strict UTF-8 validity of a byte string, as decided by Python
bytes.decode("utf-8"): overlong encodings, surrogate code points and values
above U+10FFFF are rejected. -/
def utf8Valid : List Nat → Bool
  | [] => true
  | b :: rest =>
    if b ≤ 127 then utf8Valid rest
    else if 194 ≤ b && b ≤ 223 then
      match rest with
      | c1 :: rest2 => utf8Cont c1 && utf8Valid rest2
      | [] => false
    else if b = 224 then
      match rest with
      | c1 :: c2 :: rest2 => (160 ≤ c1 && c1 ≤ 191) && utf8Cont c2 && utf8Valid rest2
      | _ => false
    else if (225 ≤ b && b ≤ 236) || (238 ≤ b && b ≤ 239) then
      match rest with
      | c1 :: c2 :: rest2 => utf8Cont c1 && utf8Cont c2 && utf8Valid rest2
      | _ => false
    else if b = 237 then
      match rest with
      | c1 :: c2 :: rest2 => (128 ≤ c1 && c1 ≤ 159) && utf8Cont c2 && utf8Valid rest2
      | _ => false
    else if b = 240 then
      match rest with
      | c1 :: c2 :: c3 :: rest2 =>
          (144 ≤ c1 && c1 ≤ 191) && utf8Cont c2 && utf8Cont c3 && utf8Valid rest2
      | _ => false
    else if 241 ≤ b && b ≤ 243 then
      match rest with
      | c1 :: c2 :: c3 :: rest2 =>
          utf8Cont c1 && utf8Cont c2 && utf8Cont c3 && utf8Valid rest2
      | _ => false
    else if b = 244 then
      match rest with
      | c1 :: c2 :: c3 :: rest2 =>
          (128 ≤ c1 && c1 ≤ 143) && utf8Cont c2 && utf8Cont c3 && utf8Valid rest2
      | _ => false
    else false

/-- utils.is_text_file on the file's byte content: read up to the first
1024 bytes; a null byte in the sample means binary, otherwise the sample
must decode as UTF-8. The accessible flag models open() raising
PermissionError/OSError, which the except branch turns into False. -/
def is_text_file (bytes : List Nat) (accessible : Bool) : Bool :=
  if !accessible then false
  else
    let sample := bytes.take 1024
    if sample.contains 0 then false
    else utf8Valid sample

/-! ## Data model (extractor.py) -/

/-- One discovered file, as appended by scan_repository. -/
structure FileEntry where
  path : String
  size : Nat
  selected : Bool
deriving DecidableEq

/-- One extracted file, as appended by extract_files_content. -/
structure FileContent where
  path : String
  content : String
deriving DecidableEq

/-- The scanner configuration held on a RepoExtractor instance together
with the excluded_folders argument of scan_repository. Python sets are
modelled as lists; the code only observes membership. -/
structure ScanConfig where
  ignoredDirs : List String
  ignoredExtensions : List String
  maxFileSize : Nat
  excludedFolders : List String
deriving DecidableEq

/-- utils.DEFAULT_IGNORED_DIRS. -/
def DEFAULT_IGNORED_DIRS : List String :=
  [".git", ".github", "node_modules", "__pycache__",
   "venv", ".venv", "env", ".env", "dist", "build",
   ".idea", ".vscode", ".gradle", "target", "bin",
   "obj", "out", "ios", "android", "public", "tmp"]

/-- utils.DEFAULT_IGNORED_EXTENSIONS. -/
def DEFAULT_IGNORED_EXTENSIONS : List String :=
  [".pyc", ".pyo", ".pyd", ".so", ".dll", ".exe", ".obj", ".o", ".a", ".lib", ".zip",
   ".tar", ".gz", ".7z", ".jar", ".war", ".ear", ".class", ".log", ".bin",
   ".png", ".jpg", ".jpeg", ".gif", ".bmp", ".ico", ".svg", ".mp3", ".mp4",
   ".avi", ".mov", ".flv", ".wmv", ".pdf", ".doc", ".docx", ".xls", ".xlsx",
   ".ppt", ".pptx", ".db", ".sqlite", ".sqlite3", ".dat", ".min.js", ".min.css",
   ".ttf", ".woff", ".woff2", ".eot", ".lock"]

/-- utils.DEFAULT_MAX_FILE_SIZE (1MB). -/
def DEFAULT_MAX_FILE_SIZE : Nat := 1024 * 1024

/-- The default configuration of RepoExtractor.__init__ with no
excluded_folders argument. -/
def defaultConfig : ScanConfig :=
  { ignoredDirs := DEFAULT_IGNORED_DIRS,
    ignoredExtensions := DEFAULT_IGNORED_EXTENSIONS,
    maxFileSize := DEFAULT_MAX_FILE_SIZE,
    excludedFolders := [] }

/-- A filesystem snapshot: the entries of one directory as a sibling-encoded
sequence (in the order os.scandir lists them). A file carries its byte
content and an accessible flag (false models os.stat/open failing with
PermissionError/OSError); a directory carries a readable flag (false models
os.scandir failing inside os.walk, which then silently yields nothing for
that directory). -/
inductive FS where
  | none
  | file (name : String) (bytes : List Nat) (accessible : Bool) (sib : FS)
  | dir (name : String) (readable : Bool) (child : FS) (sib : FS)
deriving DecidableEq

/-! ## The scan (RepoExtractor.scan_repository) -/

/-- The excluded-folders test of scan_repository line 46:
any(rel_root == folder or rel_root.startswith(folder + os.path.sep)
    for folder in excluded_folders). -/
def excludedHit (excl : List String) (rel : String) : Bool :=
  excl.any (fun folder => rel == folder || startswith rel (folder ++ "/"))

/-- The per-file body of the scan loop (lines 50-70): extension filter,
stat (size) with its swallowed except branch, size cap, text detection; a
surviving file becomes a FileEntry with selected = True. -/
def scanFile (cfg : ScanConfig) (rel name : String) (bytes : List Nat)
    (accessible : Bool) : Option FileEntry :=
  if cfg.ignoredExtensions.contains (lowerStr (splitextExt name)) then Option.none
  else if !accessible then Option.none
  else if bytes.length > cfg.maxFileSize then Option.none
  else if is_text_file bytes accessible then
    Option.some { path := childRel rel name, size := bytes.length, selected := true }
  else Option.none

/-- The file entries contributed by the files of one os.walk triple. -/
def scanFiles (cfg : ScanConfig) (rel : String) : FS → List FileEntry
  | .none => []
  | .file name bytes acc sib =>
      (scanFile cfg rel name bytes acc).toList ++ scanFiles cfg rel sib
  | .dir _ _ _ sib => scanFiles cfg rel sib

/-- The recursive part of the os.walk loop: descend into each subdirectory
that survives the ignored-dirs pruning (line 40); a subdirectory contributes
its triple only when os.scandir succeeds (readable) and its relative path
does not match excluded_folders (line 46, which otherwise empties dirs and
skips the triple). -/
def visitSubdirs (cfg : ScanConfig) (rel : String) : FS → List FileEntry
  | .none => []
  | .file _ _ _ sib => visitSubdirs cfg rel sib
  | .dir name readable child sib =>
      (if cfg.ignoredDirs.contains name then []
       else
         if readable && !excludedHit cfg.excludedFolders (childRel rel name) then
           scanFiles cfg (childRel rel name) child
             ++ visitSubdirs cfg (childRel rel name) child
         else []) ++ visitSubdirs cfg rel sib

/-- What the repo_path argument denotes on disk. -/
inductive RootPath where
  | missing
  | fileAt (name : String) (bytes : List Nat)
  | dirAt (readable : Bool) (entries : FS)
deriving DecidableEq

/-- The unsorted inventory collected by the os.walk loop. os.walk yields no
triple at all when the root is missing, is not a directory, or cannot be
scandir-ed, so those scans collect nothing (scan_repository itself never
raises). -/
def collectEntries (cfg : ScanConfig) (root : RootPath) : List FileEntry :=
  match root with
  | .dirAt readable entries =>
      if readable && !excludedHit cfg.excludedFolders "" then
        scanFiles cfg "" entries ++ visitSubdirs cfg "" entries
      else []
  | _ => []

/-- The sort key relation of files_data.sort(key=lambda x: x.path):
code-point lexicographic order on the path string. -/
def pathLe (a b : FileEntry) : Prop := lexLe a.path.data b.path.data = true

instance : DecidableRel pathLe := fun a b =>
  inferInstanceAs (Decidable (lexLe a.path.data b.path.data = true))

/-- files_data.sort(key=lambda x: x.path): a stable sort by the path key. -/
def sortByPath (l : List FileEntry) : List FileEntry := List.insertionSort pathLe l

/-- RepoExtractor.scan_repository: collect the inventory along the walk,
then sort it by path. -/
def scan_repository (cfg : ScanConfig) (root : RootPath) : List FileEntry :=
  sortByPath (collectEntries cfg root)

/-- The GUI wrapper around a scan (gui.py _scan_repo): a root path that is
not an existing directory is a hard, reported error before any scan starts;
otherwise scan_repository runs. -/
def scanChecked (cfg : ScanConfig) (root : RootPath) : Except String (List FileEntry) :=
  match root with
  | RootPath.dirAt r es => Except.ok (scan_repository cfg (RootPath.dirAt r es))
  | _ => Except.error "The selected path is not a valid directory."

/-! ## Extraction (RepoExtractor.extract_files_content) -/

/-- RepoExtractor.extract_files_content. The filesystem at extraction time
is an abstract read: readFile p = none models open() raising (file deleted
between scan and extraction, permission, OS error), which the loop prints
and skips; a successful read returns the text decoded with
errors="replace", which never raises. -/
def extract_files_content (readFile : String → Option String)
    (selected : List FileEntry) : List FileContent :=
  selected.filterMap
    (fun fi => (readFile fi.path).map (fun c => { path := fi.path, content := c }))

/-! ## Spec-modelled scan variant with includedFolders

No code under src implements includedFolders; the spec (sections 3 and 4.2)
describes it for the Scanner, so the walk is modelled again here with the
extra pruning step. -/

/-- Modelled from the spec: the includedFolders match/descendant test, the
same rule the spec states for folder sets (spec 3). -/
def includedHit (incl : List String) (rel : String) : Bool :=
  incl.any (fun folder => rel == folder || startswith rel (folder ++ "/"))

/-- Modelled from the spec: the Scanner walk of spec 4.2 with both folder
sets: after the ignored-dirs pruning (step 1), a directory is pruned when
its relative path matches excludedFolders (step 3), and then, when
includedFolders is non-empty, when it is neither the root nor a
match/descendant of an includedFolders entry (step 4; only the root is
exempt, and descent sites are never the root). -/
def visitSubdirsI (cfg : ScanConfig) (incl : List String) (rel : String) :
    FS → List FileEntry
  | .none => []
  | .file _ _ _ sib => visitSubdirsI cfg incl rel sib
  | .dir name readable child sib =>
      (if cfg.ignoredDirs.contains name then []
       else
         if readable && !excludedHit cfg.excludedFolders (childRel rel name)
             && (incl.isEmpty || includedHit incl (childRel rel name)) then
           scanFiles cfg (childRel rel name) child
             ++ visitSubdirsI cfg incl (childRel rel name) child
         else []) ++ visitSubdirsI cfg incl rel sib

/-- Modelled from the spec: scan with includedFolders; the root triple is
exempt from the includedFolders test (spec 4.2 step 4). -/
def scanI (cfg : ScanConfig) (incl : List String) (root : RootPath) :
    List FileEntry :=
  sortByPath
    (match root with
     | RootPath.dirAt readable entries =>
         if readable && !excludedHit cfg.excludedFolders "" then
           scanFiles cfg "" entries ++ visitSubdirsI cfg incl "" entries
         else []
     | _ => [])

/-! ## Raw tree contents, for stating which files a snapshot holds -/

/-- One raw file record of a snapshot. -/
structure FileRec where
  name : String
  bytes : List Nat
  accessible : Bool
deriving DecidableEq

/-- The files sitting directly in one directory entry sequence. -/
def chainTopFiles : FS → List FileRec
  | .none => []
  | .file n b a s => { name := n, bytes := b, accessible := a } :: chainTopFiles s
  | .dir _ _ _ s => chainTopFiles s

/-- All entry names (files and directories) of one directory entry
sequence; a real directory lists each name once. -/
def chainNames : FS → List String
  | .none => []
  | .file n _ _ s => n :: chainNames s
  | .dir n _ _ s => n :: chainNames s

/-- Every file in a proper subdirectory, with the directory segment list
leading to it. -/
def subdirFiles : FS → List (List String × FileRec)
  | .none => []
  | .file _ _ _ s => subdirFiles s
  | .dir n _ ch s =>
      ((chainTopFiles ch).map (fun f => ([n], f))
        ++ (subdirFiles ch).map (fun p => (n :: p.1, p.2)))
      ++ subdirFiles s

/-- Every file of the snapshot with its directory segment list. -/
def treeFiles (c : FS) : List (List String × FileRec) :=
  (chainTopFiles c).map (fun f => ([], f)) ++ subdirFiles c

/-- Like `subdirFiles`, but only through readable directories (the files a
walk can ever reach). -/
def accessSubdirFiles : FS → List (List String × FileRec)
  | .none => []
  | .file _ _ _ s => accessSubdirFiles s
  | .dir n r ch s =>
      (if r then
        (chainTopFiles ch).map (fun f => ([n], f))
          ++ (accessSubdirFiles ch).map (fun p => (n :: p.1, p.2))
       else [])
      ++ accessSubdirFiles s

/-- A legal filesystem entry name: nonempty and free of the path
separator. -/
def goodName (s : String) : Bool := !(s == "") && !(s.data.contains '/')

/-- Well-formedness of a snapshot below the top level: entry names are
legal and the entries of every subdirectory carry distinct names, as on a
real filesystem. -/
def wfAll : FS → Bool
  | .none => true
  | .file n _ _ s => goodName n && wfAll s
  | .dir n _ ch s => goodName n && decide (chainNames ch).Nodup && wfAll ch && wfAll s

/-- Well-formedness of a snapshot: the top-level names are distinct too. -/
def wfRoot (c : FS) : Bool := decide (chainNames c).Nodup && wfAll c

/-! ## Uniqueness of file addresses in a well-formed snapshot -/

/-- The full segment address of a file record of `treeFiles`. -/
def addrOf (p : List String × FileRec) : List String := p.1 ++ [p.2.name]

/-! ## Membership characterization of scan results -/

/-- The files a walk can reach: top-level files plus files behind readable
directories only. -/
def accessFiles (c : FS) : List (List String × FileRec) :=
  (chainTopFiles c).map (fun f => ([], f)) ++ accessSubdirFiles c

/-! ## Output encoders (RepoExtractor._format_markdown/_format_json/_format_plain) -/

/-- os.path.dirname of a forward-slash path: everything before the last
separator, with trailing separators stripped unless they are all the head
has. -/
def dirname (p : String) : String :=
  let cs := p.data
  let afterRev := cs.reverse.takeWhile (fun c => c ≠ '/')
  if afterRev.length = cs.length then ""
  else
    let head := cs.take (cs.length - afterRev.length)
    if head.all (fun c => c = '/') then String.mk head
    else String.mk ((head.reverse.dropWhile (fun c => c = '/')).reverse)

/-- os.path.basename of a forward-slash path. -/
def basename (p : String) : String :=
  String.mk ((p.data.reverse.takeWhile (fun c => c ≠ '/')).reverse)

/-- Python str.lstrip("."). -/
def lstripDots (s : String) : String :=
  String.mk (s.data.dropWhile (fun c => c = '.'))

/-- Python "c" * n. -/
def repeatChar (c : Char) (n : Nat) : String := String.mk (List.replicate n c)

/-- Python string comparison, for sorted(). -/
def strLe (a b : String) : Prop := lexLe a.data b.data = true

instance : DecidableRel strLe := fun a b =>
  inferInstanceAs (Decidable (lexLe a.data b.data = true))

/-- The sort key relation of sorted(files, key=lambda x: x["path"]) inside
the markdown encoder. -/
def contentPathLe (a b : FileContent) : Prop := lexLe a.path.data b.path.data = true

instance : DecidableRel contentPathLe := fun a b =>
  inferInstanceAs (Decidable (lexLe a.path.data b.path.data = true))

/-- sorted(files_by_dir.keys()): the distinct directory keys in sorted
order (Python dicts keep first-insertion order, which the sort then
discards). -/
def mdKeys (contents : List FileContent) : List String :=
  List.insertionSort strLe ((contents.map (fun c => dirname c.path)).eraseDups)

/-- files_by_dir[d], sorted by path: grouping preserves input order and the
per-directory sort orders it by full path. -/
def mdGroup (contents : List FileContent) (d : String) : List FileContent :=
  List.insertionSort contentPathLe (contents.filter (fun c => dirname c.path == d))

/-- One file block of the markdown encoder: subheading plus fenced code
block tagged with the bare extension. -/
def mdFileBlock (c : FileContent) : String :=
  let fileExt := lstripDots (splitextExt (basename c.path))
  "### File: " ++ c.path ++ "\n\n" ++ "```" ++ fileExt ++ "\n"
    ++ c.content ++ "\n```\n\n"

/-- One directory section of the markdown encoder. -/
def mdSection (contents : List FileContent) (d : String) : String :=
  (if d ≠ "" then "## Directory: " ++ d ++ "\n\n" else "## Root Directory\n\n")
    ++ String.join ((mdGroup contents d).map mdFileBlock)

/-- RepoExtractor._format_markdown. -/
def format_markdown (contents : List FileContent) : String :=
  "# Repository Code Compendium\n\n"
    ++ String.join ((mdKeys contents).map (mdSection contents))

/-- One file block of the plain-text encoder. -/
def plainBlock (c : FileContent) : String :=
  "FILE: " ++ c.path ++ "\n" ++ repeatChar '=' (c.path.length + 6) ++ "\n\n"
    ++ c.content ++ "\n\n" ++ repeatChar '-' 80 ++ "\n\n"

/-- RepoExtractor._format_plain. -/
def format_plain (contents : List FileContent) : String :=
  "REPOSITORY CODE COMPENDIUM\n\n" ++ String.join (contents.map plainBlock)

/-- The opening curly brace character. -/
def lbrace : Char := Char.ofNat 123

/-- The closing curly brace character. -/
def rbrace : Char := Char.ofNat 125

/-- Lowercase hex digit of a value below 16, as Python "%04x" prints. -/
def hexDigit (n : Nat) : Char :=
  if n < 10 then Char.ofNat (48 + n) else Char.ofNat (87 + n)

/-- Four lowercase hex digits of a code unit below 0x10000. -/
def hex4 (n : Nat) : List Char :=
  [hexDigit (n / 4096 % 16), hexDigit (n / 256 % 16),
   hexDigit (n / 16 % 16), hexDigit (n % 16)]

/-- The escape of one character in json.dumps with its default
ensure_ascii=True: named escapes for the common control characters, quote
and backslash; printable ASCII verbatim; everything else as one or, for
astral code points, a UTF-16 surrogate pair of \uXXXX escapes. -/
def escChar (c : Char) : List Char :=
  let n := c.toNat
  if n = 34 then ['\\', '"']
  else if n = 92 then ['\\', '\\']
  else if n = 8 then ['\\', 'b']
  else if n = 9 then ['\\', 't']
  else if n = 10 then ['\\', 'n']
  else if n = 12 then ['\\', 'f']
  else if n = 13 then ['\\', 'r']
  else if 32 ≤ n ∧ n ≤ 126 then [c]
  else if n ≤ 65535 then '\\' :: 'u' :: hex4 n
  else
    ('\\' :: 'u' :: hex4 (55296 + (n - 65536) / 1024))
      ++ ('\\' :: 'u' :: hex4 (56320 + (n - 65536) % 1024))

/-- A JSON string literal of s as json.dumps writes it. -/
def jsonQuote (s : String) : String :=
  String.mk ('"' :: (s.data.flatMap escChar ++ ['"']))

/-- One array element of _format_json under json.dumps(..., indent=2). -/
def jsonItem (c : FileContent) : String :=
  "    " ++ String.mk [lbrace] ++ "\n      " ++ jsonQuote "path" ++ ": "
    ++ jsonQuote c.path ++ ",\n      " ++ jsonQuote "content" ++ ": "
    ++ jsonQuote c.content ++ "\n    " ++ String.mk [rbrace]

/-- The array elements joined by the item separator json.dumps uses under
indent=2 (a comma, then a newline and the indentation carried by the next
item). -/
def jsonItems : List FileContent → String
  | [] => ""
  | [c] => jsonItem c
  | c :: rest => jsonItem c ++ ",\n" ++ jsonItems rest

/-- RepoExtractor._format_json composed with json.dumps(result, indent=2):
the single-key repository object serialized with two-space indentation. -/
def format_json (contents : List FileContent) : String :=
  if contents.isEmpty then
    String.mk [lbrace] ++ "\n  " ++ jsonQuote "repository" ++ ": []\n"
      ++ String.mk [rbrace]
  else
    String.mk [lbrace] ++ "\n  " ++ jsonQuote "repository" ++ ": [\n"
      ++ jsonItems contents
      ++ "\n  ]\n" ++ String.mk [rbrace]

/-- RepoExtractor.format_output: format_type or self.output_format (Python
or treats None and the empty string alike), then dispatch by string
comparison with a markdown fallback for anything unrecognized. -/
def format_output (outputFormat : String) (contents : List FileContent)
    (formatType : Option String) : String :=
  let fmt := match formatType with
    | Option.none => outputFormat
    | Option.some s => if s = "" then outputFormat else s
  if fmt = "markdown" then format_markdown contents
  else if fmt = "json" then format_json contents
  else if fmt = "plain" then format_plain contents
  else format_markdown contents

/-! ## A JSON reader, to state the encode-then-parse round trip

The reader is independent of the encoder: it lexes JSON whitespace, string
literals with the full escape grammar (including surrogate pairs), and the
object/array shape of the emitted document, and it rejects trailing or
malformed input. -/

/-- The four JSON whitespace characters. -/
def isJsonWs (c : Char) : Bool := c = ' ' || c = '\n' || c = '\t' || c = '\r'

/-- Drop leading JSON whitespace. -/
def skipWs : List Char → List Char
  | [] => []
  | c :: cs => if isJsonWs c then skipWs cs else c :: cs

/-- The value of one hex digit character, upper or lower case. -/
def hexVal (c : Char) : Option Nat :=
  let n := c.toNat
  if 48 ≤ n ∧ n ≤ 57 then Option.some (n - 48)
  else if 97 ≤ n ∧ n ≤ 102 then Option.some (n - 87)
  else if 65 ≤ n ∧ n ≤ 70 then Option.some (n - 55)
  else Option.none

/-- Parse four hex digits into their code unit value. -/
def parseHex4 : List Char → Option (Nat × List Char)
  | h1 :: h2 :: h3 :: h4 :: cs =>
    match hexVal h1, hexVal h2, hexVal h3, hexVal h4 with
    | Option.some v1, Option.some v2, Option.some v3, Option.some v4 =>
        Option.some (v1 * 4096 + v2 * 256 + v3 * 16 + v4, cs)
    | _, _, _, _ => Option.none
  | _ => Option.none

/-- Decode what follows a \u introducer: either a plain BMP code unit, or
a high surrogate followed by a \u low surrogate, combining into one
astral code point; a lone or misordered surrogate is rejected. -/
def parseUnicodeEscape (cs : List Char) : Option (Char × List Char) :=
  match parseHex4 cs with
  | Option.some (code, cs3) =>
    if 55296 ≤ code ∧ code ≤ 56319 then
      match cs3 with
      | b1 :: b2 :: cs3b =>
        if b1 = '\\' ∧ b2 = 'u' then
          match parseHex4 cs3b with
          | Option.some (low, cs4) =>
            if 56320 ≤ low ∧ low ≤ 57343 then
              Option.some
                (Char.ofNat (65536 + (code - 55296) * 1024 + (low - 56320)), cs4)
            else Option.none
          | Option.none => Option.none
        else Option.none
      | _ => Option.none
    else if 56320 ≤ code ∧ code ≤ 57343 then Option.none
    else Option.some (Char.ofNat code, cs3)
  | Option.none => Option.none

/-- Decode what follows a backslash in a JSON string literal. -/
def parseEscape : List Char → Option (Char × List Char)
  | [] => Option.none
  | e :: cs =>
    if e = '"' then Option.some ('"', cs)
    else if e = '\\' then Option.some ('\\', cs)
    else if e = '/' then Option.some ('/', cs)
    else if e = 'b' then Option.some (Char.ofNat 8, cs)
    else if e = 'f' then Option.some (Char.ofNat 12, cs)
    else if e = 'n' then Option.some ('\n', cs)
    else if e = 'r' then Option.some (Char.ofNat 13, cs)
    else if e = 't' then Option.some ('\t', cs)
    else if e = 'u' then parseUnicodeEscape cs
    else Option.none

/-- Decode a JSON string body up to and beyond its closing quote: the
decoded characters and the rest of the input. Raw control characters are
rejected as in the strict mode of json.loads. The fuel only bounds the
loop; one unit per decoded character is enough. -/
def parseStringBody : Nat → List Char → Option (List Char × List Char)
  | 0, _ => Option.none
  | _ + 1, [] => Option.none
  | fuel + 1, c :: cs =>
    if c = '"' then Option.some ([], cs)
    else if c = '\\' then
      match parseEscape cs with
      | Option.some (d, cs2) =>
          (parseStringBody fuel cs2).map (fun r => (d :: r.1, r.2))
      | Option.none => Option.none
    else if c.toNat < 32 then Option.none
    else (parseStringBody fuel cs).map (fun r => (c :: r.1, r.2))

/-- Parse one JSON string literal after optional whitespace; the input
length bounds the characters a literal can decode to, so it serves as
fuel. -/
def parseStrLit (cs : List Char) : Option (String × List Char) :=
  match skipWs cs with
  | d :: rest =>
      if d = '"' then
        (parseStringBody (rest.length + 1) rest).map (fun r => (String.mk r.1, r.2))
      else Option.none
  | [] => Option.none

/-- Expect one punctuation character after optional whitespace. -/
def expectChar (c : Char) (cs : List Char) : Option (List Char) :=
  match skipWs cs with
  | d :: rest => if d = c then Option.some rest else Option.none
  | [] => Option.none

/-- Parse one "key": "value" member with string key and value. -/
def parseMember (cs : List Char) : Option ((String × String) × List Char) :=
  match parseStrLit cs with
  | Option.some (k, cs1) =>
    match expectChar ':' cs1 with
    | Option.some cs2 =>
      match parseStrLit cs2 with
      | Option.some (v, cs3) => Option.some ((k, v), cs3)
      | Option.none => Option.none
    | Option.none => Option.none
  | Option.none => Option.none

/-- Parse the members of a non-empty all-string object up to its closing
brace; the fuel bounds the loop and any fuel above the member count acts
the same. -/
def parseMembersLoop : Nat → List Char → Option (List (String × String) × List Char)
  | 0, _ => Option.none
  | fuel + 1, cs =>
    match parseMember cs with
    | Option.some (kv, cs1) =>
      match skipWs cs1 with
      | c :: cs2 =>
          if c = ',' then (parseMembersLoop fuel cs2).map (fun r => (kv :: r.1, r.2))
          else if c = rbrace then Option.some ([kv], cs2)
          else Option.none
      | [] => Option.none
    | Option.none => Option.none

/-- Parse an object whose values are all strings, returning its members in
document order. -/
def parseStrObj (fuel : Nat) (cs : List Char) :
    Option (List (String × String) × List Char) :=
  match skipWs cs with
  | c :: cs1 =>
      if c = lbrace then
        match skipWs cs1 with
        | d :: cs2 =>
            if d = rbrace then Option.some ([], cs2)
            else parseMembersLoop fuel (d :: cs2)
        | [] => Option.none
      else Option.none
  | [] => Option.none

/-- Parse the elements of a non-empty array of all-string objects up to
its closing bracket. -/
def parseObjsLoop : Nat → Nat → List Char →
    Option (List (List (String × String)) × List Char)
  | 0, _, _ => Option.none
  | fuel + 1, mfuel, cs =>
    match parseStrObj mfuel cs with
    | Option.some (obj, cs1) =>
      match skipWs cs1 with
      | c :: cs2 =>
          if c = ',' then
            (parseObjsLoop fuel mfuel cs2).map (fun r => (obj :: r.1, r.2))
          else if c = ']' then Option.some ([obj], cs2)
          else Option.none
      | [] => Option.none
    | Option.none => Option.none

/-- Parse an array of all-string objects. -/
def parseObjArray (fuel mfuel : Nat) (cs : List Char) :
    Option (List (List (String × String)) × List Char) :=
  match skipWs cs with
  | c :: cs1 =>
      if c = '[' then
        match skipWs cs1 with
        | d :: cs2 =>
            if d = ']' then Option.some ([], cs2)
            else parseObjsLoop fuel mfuel (d :: cs2)
        | [] => Option.none
      else Option.none
  | [] => Option.none

/-- Parse a whole document of the emitted shape: a single object with one
string key whose value is an array of all-string objects, with nothing but
whitespace after it. Returns the key and, per array element, the element's
members (field names and values) in document order. -/
def parseRepoDoc (s : String) : Option (String × List (List (String × String))) :=
  let cs := s.data
  match skipWs cs with
  | c :: cs1 =>
      if c = lbrace then
        match parseStrLit cs1 with
        | Option.some (key, cs2) =>
          match expectChar ':' cs2 with
          | Option.some cs3 =>
            match parseObjArray (cs.length + 2) (cs.length + 2) cs3 with
            | Option.some (arr, cs4) =>
              match skipWs cs4 with
              | d :: cs5 =>
                  if d = rbrace ∧ skipWs cs5 = [] then Option.some (key, arr)
                  else Option.none
              | [] => Option.none
            | Option.none => Option.none
          | Option.none => Option.none
        | Option.none => Option.none
      else Option.none
  | [] => Option.none

/-! ## Concrete snapshots instantiating the scan theorems -/

/-- Two root files listed out of order by the snapshot. -/
def fsPair : FS := FS.file "b.py" [120] true (FS.file "a.py" [121] true FS.none)

/-- A single root file whose first byte is null. -/
def fsNull : FS := FS.file "evil.bin" [0] true FS.none

/-- A configuration that excludes the folder "src". -/
def cfgSrc : ScanConfig :=
  { ignoredDirs := [], ignoredExtensions := [], maxFileSize := 100,
    excludedFolders := ["src"] }

/-- A snapshot with the folder "src" (holding a.py) and a root file b.txt. -/
def fsSrc : FS :=
  FS.dir "src" true (FS.file "a.py" [120] true FS.none)
    (FS.file "b.txt" [121] true FS.none)

/-! ## Theorems -/

theorem lexLe_total (a b : List Char) : lexLe a b = true ∨ lexLe b a = true := by
  induction a generalizing b with
  | nil => exact Or.inl rfl
  | cons x xs ih =>
    cases b with
    | nil => exact Or.inr rfl
    | cons y ys =>
      rcases lt_trichotomy x y with h | h | h
      · left; simp [lexLe, h]
      · subst h
        rcases ih ys with h2 | h2
        · left; simp [lexLe, h2]
        · right; simp [lexLe, h2]
      · right; simp [lexLe, h]

theorem lexLe_trans {a b c : List Char} (hab : lexLe a b = true)
    (hbc : lexLe b c = true) : lexLe a c = true := by
  induction a generalizing b c with
  | nil => rfl
  | cons x xs ih =>
    cases b with
    | nil => simp [lexLe] at hab
    | cons y ys =>
      cases c with
      | nil => simp [lexLe] at hbc
      | cons z zs =>
        simp only [lexLe] at hab hbc ⊢
        by_cases hxy : x < y
        · by_cases hyz : y < z
          · simp [hxy.trans hyz]
          · simp only [hxy, if_true] at hab
            by_cases hyz2 : y = z
            · subst hyz2; simp [hxy]
            · simp [hyz, hyz2] at hbc
        · by_cases hxy2 : x = y
          · subst hxy2
            simp only [hxy, if_false, if_true] at hab
            by_cases hyz : x < z
            · simp [hyz]
            · by_cases hyz2 : x = z
              · subst hyz2
                simp only [hyz, if_false, if_true] at hbc
                simp [hyz, ih hab hbc]
              · simp [hyz, hyz2] at hbc
          · simp [hxy, hxy2] at hab

theorem lexLe_refl (a : List Char) : lexLe a a = true := by
  induction a with
  | nil => rfl
  | cons x xs ih => simp [lexLe, ih]

theorem lexLe_antisymm {a b : List Char} (hab : lexLe a b = true)
    (hba : lexLe b a = true) : a = b := by
  induction a generalizing b with
  | nil =>
    cases b with
    | nil => rfl
    | cons y ys => simp [lexLe] at hba
  | cons x xs ih =>
    cases b with
    | nil => simp [lexLe] at hab
    | cons y ys =>
      simp only [lexLe] at hab hba
      by_cases h1 : x < y
      · by_cases h2 : y < x
        · exact absurd (h1.trans h2) (lt_irrefl x)
        · by_cases h3 : y = x
          · exact absurd (h3 ▸ h1) (lt_irrefl x)
          · simp [h2, h3] at hba
      · by_cases h2 : x = y
        · subst h2
          simp only [h1, if_false, if_true] at hab hba
          rw [ih hab hba]
        · simp [h1, h2] at hab

theorem lt_of_lexLe_of_ne {a b : List Char} (hab : lexLe a b = true)
    (hne : a ≠ b) : a < b := by
  induction a generalizing b with
  | nil =>
    cases b with
    | nil => exact absurd rfl hne
    | cons y ys => exact List.nil_lt_cons y ys
  | cons x xs ih =>
    cases b with
    | nil => simp [lexLe] at hab
    | cons y ys =>
      simp only [lexLe] at hab
      by_cases h1 : x < y
      · exact List.Lex.rel h1
      · by_cases h2 : x = y
        · subst h2
          have hxs : xs ≠ ys := fun h => hne (by rw [h])
          exact List.Lex.cons (ih (by simpa [h1] using hab) hxs)
        · simp [h1, h2] at hab

instance : IsTotal FileEntry pathLe := ⟨fun a b => lexLe_total a.path.data b.path.data⟩

instance : IsTrans FileEntry pathLe := ⟨fun _ _ _ => lexLe_trans⟩

/-! ## String-level facts about paths -/

theorem str_ext {s t : String} (h : s.data = t.data) : s = t := by
  cases s with
  | mk d1 =>
    cases t with
    | mk d2 => exact congrArg String.mk h

theorem data_childRel (rel n : String) :
    (childRel rel n).data = if rel = "" then n.data else rel.data ++ '/' :: n.data := by
  unfold childRel
  split
  · rfl
  · rw [String.data_append, String.data_append]
    simp

theorem goodName_spec {s : String} (h : goodName s = true) :
    s.data ≠ [] ∧ '/' ∉ s.data := by
  unfold goodName at h
  simp only [Bool.and_eq_true, Bool.not_eq_true', beq_eq_false_iff_ne] at h
  refine ⟨fun hd => h.1 (str_ext (by simp [hd])), ?_⟩
  intro hm
  have := h.2
  simp [List.contains_eq_any_beq] at this
  exact absurd hm (by simpa using this)

theorem startsAux_iff (p s : List Char) : startsAux p s = true ↔ p <+: s := by
  induction p generalizing s with
  | nil => simp [startsAux]
  | cons a ps ih =>
    cases s with
    | nil =>
      simp only [startsAux]
      exact iff_of_false (by simp) (fun h => absurd h.length_le (by simp))
    | cons b ss =>
      simp only [startsAux, Bool.and_eq_true, beq_iff_eq, ih]
      constructor
      · rintro ⟨rfl, t, ht⟩
        exact ⟨t, by simp [ht]⟩
      · intro h
        obtain ⟨t, ht⟩ := h
        simp only [List.cons_append, List.cons.injEq] at ht
        exact ⟨ht.1, ⟨t, ht.2⟩⟩

theorem startswith_iff (s p : String) : startswith s p = true ↔ p.data <+: s.data :=
  startsAux_iff p.data s.data

theorem slash_split {a1 a2 r1 r2 : List Char} (h1 : '/' ∉ a1) (h2 : '/' ∉ a2)
    (h : a1 ++ '/' :: r1 = a2 ++ '/' :: r2) : a1 = a2 ∧ r1 = r2 := by
  induction a1 generalizing a2 with
  | nil =>
    cases a2 with
    | nil => simpa using h
    | cons c cs =>
      simp only [List.nil_append, List.cons_append, List.cons.injEq] at h
      exact absurd (h.1 ▸ List.mem_cons_self c cs) h2
  | cons c cs ih =>
    cases a2 with
    | nil =>
      simp only [List.nil_append, List.cons_append, List.cons.injEq] at h
      exact absurd (h.1.symm ▸ List.mem_cons_self c cs) h1
    | cons d ds =>
      simp only [List.cons_append, List.cons.injEq] at h
      obtain ⟨rfl, h⟩ := h
      have := ih (fun hm => h1 (List.mem_cons_of_mem _ hm))
        (fun hm => h2 (List.mem_cons_of_mem _ hm)) h
      exact ⟨by rw [this.1], this.2⟩

theorem slash_len_le {dl nl fl t : List Char} (hnl : '/' ∉ nl)
    (h : dl ++ '/' :: nl = fl ++ '/' :: t) : fl.length ≤ dl.length := by
  induction dl generalizing fl with
  | nil =>
    cases fl with
    | nil => simp
    | cons c cs =>
      simp only [List.nil_append, List.cons_append, List.cons.injEq] at h
      exact absurd (h.2 ▸ List.mem_append_right cs (List.mem_cons_self '/' t)) hnl
  | cons d ds ih =>
    cases fl with
    | nil => simp
    | cons c cs =>
      simp only [List.cons_append, List.cons.injEq] at h
      simpa using Nat.succ_le_succ (ih h.2)

theorem data_joinSegs_cons_cons (a b : String) (rest : List String) :
    (joinSegs (a :: b :: rest)).data = a.data ++ '/' :: (joinSegs (b :: rest)).data := by
  show (a ++ "/" ++ joinSegs (b :: rest)).data = _
  rw [String.data_append, String.data_append]
  simp

theorem joinSegs_ne_empty {l : List String} (hne : l ≠ [])
    (h : ∀ s ∈ l, goodName s = true) : (joinSegs l).data ≠ [] := by
  match l with
  | [] => exact absurd rfl hne
  | [a] => exact (goodName_spec (h a (by simp))).1
  | a :: b :: rest =>
    rw [data_joinSegs_cons_cons]
    simp

theorem joinSegs_inj {l1 l2 : List String} (h1 : ∀ s ∈ l1, goodName s = true)
    (h2 : ∀ s ∈ l2, goodName s = true) (h : joinSegs l1 = joinSegs l2) : l1 = l2 := by
  induction l1 generalizing l2 with
  | nil =>
    cases l2 with
    | nil => rfl
    | cons b bs =>
      exact absurd (congrArg String.data h).symm
        (joinSegs_ne_empty (by simp) h2)
  | cons a as ih =>
    cases l2 with
    | nil =>
      exact absurd (congrArg String.data h)
        (joinSegs_ne_empty (by simp) h1)
    | cons b bs =>
      cases as with
      | nil =>
        cases bs with
        | nil => rw [show joinSegs [a] = a from rfl, show joinSegs [b] = b from rfl] at h; rw [h]
        | cons c cs =>
          have hd := congrArg String.data h
          rw [data_joinSegs_cons_cons] at hd
          have : '/' ∈ (joinSegs [a]).data := by rw [hd]; simp
          exact absurd this (goodName_spec (h1 a (by simp))).2
      | cons a2 as2 =>
        cases bs with
        | nil =>
          have hd := congrArg String.data h
          rw [data_joinSegs_cons_cons] at hd
          have : '/' ∈ (joinSegs [b]).data := by rw [← hd]; simp
          exact absurd this (goodName_spec (h2 b (by simp))).2
        | cons b2 bs2 =>
          have hd := congrArg String.data h
          rw [data_joinSegs_cons_cons, data_joinSegs_cons_cons] at hd
          have hsplit := slash_split (goodName_spec (h1 a (by simp))).2
            (goodName_spec (h2 b (by simp))).2 hd
          have hab : a = b := str_ext hsplit.1
          have htail : (a2 :: as2) = (b2 :: bs2) :=
            ih (fun s hs => h1 s (by simp [hs])) (fun s hs => h2 s (by simp [hs]))
              (str_ext hsplit.2)
          rw [hab, htail]

theorem joinSegs_cons_ne_empty {a : String} {as : List String}
    (h : ∀ s ∈ a :: as, goodName s = true) : joinSegs (a :: as) ≠ "" := by
  intro he
  exact joinSegs_ne_empty (l := a :: as) (by simp) h (by rw [he])

theorem joinSegs_concat (l : List String) (n : String)
    (hl : ∀ s ∈ l, goodName s = true) :
    joinSegs (l ++ [n]) = childRel (joinSegs l) n := by
  induction l with
  | nil => simp [joinSegs, childRel]
  | cons a as ih =>
    cases as with
    | nil =>
      have ha : a ≠ "" := fun he =>
        (goodName_spec (hl a (by simp))).1 (by rw [he])
      show a ++ "/" ++ n = childRel a n
      rw [childRel, if_neg ha]
    | cons b bs =>
      have hsub : ∀ s ∈ b :: bs, goodName s = true := by
        intro s hs
        exact hl s (by simp at hs ⊢; tauto)
      have hne : joinSegs (a :: b :: bs) ≠ "" :=
        joinSegs_cons_ne_empty hl
      have hb2 : joinSegs (b :: bs) ≠ "" := joinSegs_cons_ne_empty hsub
      show a ++ "/" ++ joinSegs (b :: (bs ++ [n])) = childRel (joinSegs (a :: b :: bs)) n
      rw [childRel, if_neg hne]
      rw [show joinSegs (a :: b :: bs) = a ++ "/" ++ joinSegs (b :: bs) from rfl]
      rw [show (joinSegs (b :: (bs ++ [n])) : String) = joinSegs ((b :: bs) ++ [n]) from rfl,
        ih hsub, childRel, if_neg hb2]
      simp [String.append_assoc]

theorem pathUnder_nil (rel : String) : pathUnder rel [] = rel := rfl

theorem pathUnder_cons (rel a : String) (segs : List String) :
    pathUnder rel (a :: segs) = pathUnder (childRel rel a) segs := rfl

theorem pathUnder_concat (rel : String) (segs : List String) (n : String) :
    pathUnder rel (segs ++ [n]) = childRel (pathUnder rel segs) n := by
  simp [pathUnder, List.foldl_append]

theorem pathUnder_joinSegs (l segs : List String)
    (h : ∀ s ∈ l ++ segs, goodName s = true) :
    pathUnder (joinSegs l) segs = joinSegs (l ++ segs) := by
  induction segs generalizing l with
  | nil => simp [pathUnder]
  | cons a rest ih =>
    rw [pathUnder_cons,
      ← joinSegs_concat l a (fun s hs => h s (List.mem_append_left _ hs)),
      ih (l ++ [a]) (fun s hs => h s (by
        rcases List.mem_append.mp hs with hs2 | hs2
        · rcases List.mem_append.mp hs2 with hs3 | hs3
          · exact List.mem_append_left _ hs3
          · exact List.mem_append_right _ (by simpa using Or.inl (by simpa using hs3))
        · exact List.mem_append_right _ (by simp [hs2])))]
    simp

theorem pathUnder_root (segs : List String)
    (h : ∀ s ∈ segs, goodName s = true) : pathUnder "" segs = joinSegs segs := by
  have := pathUnder_joinSegs [] segs (by simpa using h)
  simpa using this

/-! ## Soundness of the walk: every inventory entry names a reachable file -/

theorem scanFile_some_spec {cfg : ScanConfig} {rel name : String} {bytes : List Nat}
    {acc : Bool} {e : FileEntry} (h : scanFile cfg rel name bytes acc = Option.some e) :
    e = { path := childRel rel name, size := bytes.length, selected := true } ∧
    acc = true ∧ is_text_file bytes acc = true ∧
    bytes.length ≤ cfg.maxFileSize ∧
    cfg.ignoredExtensions.contains (lowerStr (splitextExt name)) = false := by
  unfold scanFile at h
  split_ifs at h with h1 h2 h3 h4
  injection h with h5
  exact ⟨h5.symm, by simpa using h2, h4, by omega, by simpa using h1⟩

theorem scanFiles_sound {cfg : ScanConfig} {rel : String} {c : FS} {e : FileEntry}
    (h : e ∈ scanFiles cfg rel c) :
    ∃ f ∈ chainTopFiles c,
      scanFile cfg rel f.name f.bytes f.accessible = Option.some e := by
  induction c with
  | none => simp [scanFiles] at h
  | file n b a s ih =>
    rw [scanFiles] at h
    rcases List.mem_append.mp h with h2 | h2
    · refine ⟨{ name := n, bytes := b, accessible := a }, by simp [chainTopFiles], ?_⟩
      cases hsf : scanFile cfg rel n b a with
      | none => rw [hsf] at h2; simp [Option.toList] at h2
      | some e2 => rw [hsf] at h2; simp [Option.toList] at h2; rw [h2]
    · obtain ⟨f, hf, hsf⟩ := ih h2
      exact ⟨f, by simp [chainTopFiles, hf], hsf⟩
  | dir n r ch s ih1 ih2 =>
    rw [scanFiles] at h
    obtain ⟨f, hf, hsf⟩ := ih2 h
    exact ⟨f, by simp [chainTopFiles, hf], hsf⟩

theorem visitSubdirs_sound {cfg : ScanConfig} {rel : String} {c : FS} {e : FileEntry}
    (h : e ∈ visitSubdirs cfg rel c) :
    ∃ p ∈ accessSubdirFiles c,
      scanFile cfg (pathUnder rel p.1) p.2.name p.2.bytes p.2.accessible
        = Option.some e := by
  induction c generalizing rel with
  | none => simp [visitSubdirs] at h
  | file n b a s ih =>
    rw [visitSubdirs] at h
    obtain ⟨p, hp, hsf⟩ := ih h
    exact ⟨p, by simpa [accessSubdirFiles] using hp, hsf⟩
  | dir n r ch s ih1 ih2 =>
    rw [visitSubdirs] at h
    rcases List.mem_append.mp h with h2 | h2
    · by_cases hig : cfg.ignoredDirs.contains n
      · rw [if_pos hig] at h2
        simp at h2
      · rw [if_neg hig] at h2
        by_cases hc : (r && !excludedHit cfg.excludedFolders (childRel rel n)) = true
        · rw [if_pos hc] at h2
          have hr : r = true := by
            have hc2 := hc
            simp only [Bool.and_eq_true] at hc2
            exact hc2.1
          rcases List.mem_append.mp h2 with h3 | h3
          · obtain ⟨f, hf, hsf⟩ := scanFiles_sound h3
            refine ⟨([n], f), ?_, ?_⟩
            · show ([n], f) ∈ accessSubdirFiles (FS.dir n r ch s)
              rw [accessSubdirFiles, hr, if_pos rfl]
              exact List.mem_append_left _
                (List.mem_append_left _ (List.mem_map_of_mem _ hf))
            · simpa [pathUnder] using hsf
          · obtain ⟨p, hp, hsf⟩ := ih1 h3
            refine ⟨(n :: p.1, p.2), ?_, ?_⟩
            · rw [accessSubdirFiles, hr, if_pos rfl]
              refine List.mem_append_left _ (List.mem_append_right _ ?_)
              exact List.mem_map.mpr ⟨p, hp, rfl⟩
            · simpa [pathUnder] using hsf
        · rw [if_neg hc] at h2
          simp at h2
    · obtain ⟨p, hp, hsf⟩ := ih2 h2
      refine ⟨p, ?_, hsf⟩
      rw [accessSubdirFiles]
      exact List.mem_append_right _ hp

theorem visitSubdirsI_sound {cfg : ScanConfig} {incl : List String} {rel : String}
    {c : FS} {e : FileEntry} (h : e ∈ visitSubdirsI cfg incl rel c) :
    ∃ p ∈ accessSubdirFiles c,
      scanFile cfg (pathUnder rel p.1) p.2.name p.2.bytes p.2.accessible
          = Option.some e ∧
      excludedHit cfg.excludedFolders (pathUnder rel p.1) = false ∧
      (incl.isEmpty || includedHit incl (pathUnder rel p.1)) = true := by
  induction c generalizing rel with
  | none => simp [visitSubdirsI] at h
  | file n b a s ih =>
    rw [visitSubdirsI] at h
    obtain ⟨p, hp, hsf⟩ := ih h
    exact ⟨p, by simpa [accessSubdirFiles] using hp, hsf⟩
  | dir n r ch s ih1 ih2 =>
    rw [visitSubdirsI] at h
    rcases List.mem_append.mp h with h2 | h2
    · by_cases hig : cfg.ignoredDirs.contains n
      · rw [if_pos hig] at h2
        simp at h2
      · rw [if_neg hig] at h2
        by_cases hc : (r && !excludedHit cfg.excludedFolders (childRel rel n)
            && (incl.isEmpty || includedHit incl (childRel rel n))) = true
        · rw [if_pos hc] at h2
          have hc2 := hc
          simp only [Bool.and_eq_true, Bool.not_eq_true'] at hc2
          obtain ⟨⟨hr, hex⟩, hin⟩ := hc2
          have hin : (incl.isEmpty || includedHit incl (childRel rel n)) = true := by
            simpa using hin
          rcases List.mem_append.mp h2 with h3 | h3
          · obtain ⟨f, hf, hsf⟩ := scanFiles_sound h3
            refine ⟨([n], f), ?_, ?_, ?_, ?_⟩
            · rw [accessSubdirFiles, hr, if_pos rfl]
              exact List.mem_append_left _
                (List.mem_append_left _ (List.mem_map_of_mem _ hf))
            · simpa [pathUnder] using hsf
            · simpa [pathUnder] using hex
            · simpa [pathUnder] using hin
          · obtain ⟨p, hp, hsf, hex2, hin2⟩ := ih1 h3
            refine ⟨(n :: p.1, p.2), ?_, ?_, ?_, ?_⟩
            · rw [accessSubdirFiles, hr, if_pos rfl]
              refine List.mem_append_left _ (List.mem_append_right _ ?_)
              exact List.mem_map.mpr ⟨p, hp, rfl⟩
            · simpa [pathUnder] using hsf
            · simpa [pathUnder] using hex2
            · simpa [pathUnder] using hin2
        · rw [if_neg hc] at h2
          simp at h2
    · obtain ⟨p, hp, hsf⟩ := ih2 h2
      refine ⟨p, ?_, hsf⟩
      rw [accessSubdirFiles]
      exact List.mem_append_right _ hp

theorem mem_subdirFiles_of_access {c : FS} :
    ∀ {p : List String × FileRec}, p ∈ accessSubdirFiles c → p ∈ subdirFiles c := by
  induction c with
  | none => intro p h; simp [accessSubdirFiles] at h
  | file n b a s ih =>
    intro p h
    rw [accessSubdirFiles] at h
    rw [subdirFiles]
    exact ih h
  | dir n r ch s ih1 ih2 =>
    intro p h
    rw [accessSubdirFiles] at h
    rw [subdirFiles]
    rcases List.mem_append.mp h with h2 | h2
    · by_cases hr : r = true
      · rw [hr, if_pos rfl] at h2
        rcases List.mem_append.mp h2 with h3 | h3
        · exact List.mem_append_left _ (List.mem_append_left _ h3)
        · obtain ⟨q, hq, rfl⟩ := List.mem_map.mp h3
          exact List.mem_append_left _
            (List.mem_append_right _ (List.mem_map.mpr ⟨q, ih1 hq, rfl⟩))
      · rw [if_neg hr] at h2
        simp at h2
    · exact List.mem_append_right _ (ih2 h2)

theorem mem_treeFiles_top {c : FS} {f : FileRec} (h : f ∈ chainTopFiles c) :
    (([] : List String), f) ∈ treeFiles c :=
  List.mem_append_left _ (List.mem_map_of_mem _ h)

theorem mem_treeFiles_sub {c : FS} {p : List String × FileRec}
    (h : p ∈ subdirFiles c) : p ∈ treeFiles c :=
  List.mem_append_right _ h

theorem chainTopFiles_name_mem {c : FS} {f : FileRec} (h : f ∈ chainTopFiles c) :
    f.name ∈ chainNames c := by
  induction c with
  | none => simp [chainTopFiles] at h
  | file n b a s ih =>
    rw [chainTopFiles] at h
    rcases List.mem_cons.mp h with h2 | h2
    · rw [h2]
      exact List.mem_cons_self _ _
    · exact List.mem_cons_of_mem _ (ih h2)
  | dir n r ch s ih1 ih2 =>
    rw [chainTopFiles] at h
    exact List.mem_cons_of_mem _ (ih2 h)

theorem subdirFiles_head_mem {c : FS} {p : List String × FileRec}
    (h : p ∈ subdirFiles c) : ∃ hd t, p.1 = hd :: t ∧ hd ∈ chainNames c := by
  induction c with
  | none => simp [subdirFiles] at h
  | file n b a s ih =>
    rw [subdirFiles] at h
    obtain ⟨hd, t, he, hm⟩ := ih h
    exact ⟨hd, t, he, List.mem_cons_of_mem _ hm⟩
  | dir n r ch s ih1 ih2 =>
    rw [subdirFiles] at h
    rcases List.mem_append.mp h with h2 | h2
    · rcases List.mem_append.mp h2 with h3 | h3
      · obtain ⟨f, hf, rfl⟩ := List.mem_map.mp h3
        exact ⟨n, [], rfl, List.mem_cons_self _ _⟩
      · obtain ⟨q, hq, rfl⟩ := List.mem_map.mp h3
        exact ⟨n, q.1, rfl, List.mem_cons_self _ _⟩
    · obtain ⟨hd, t, he, hm⟩ := ih2 h2
      exact ⟨hd, t, he, List.mem_cons_of_mem _ hm⟩

theorem wfAll_file {n : String} {b : List Nat} {a : Bool} {s : FS}
    (h : wfAll (FS.file n b a s) = true) : goodName n = true ∧ wfAll s = true := by
  rw [wfAll] at h
  simpa [Bool.and_eq_true] using h

theorem wfAll_dir {n : String} {r : Bool} {ch s : FS}
    (h : wfAll (FS.dir n r ch s) = true) :
    goodName n = true ∧ (chainNames ch).Nodup ∧ wfAll ch = true ∧ wfAll s = true := by
  rw [wfAll] at h
  simp only [Bool.and_eq_true, decide_eq_true_eq] at h
  exact ⟨h.1.1.1, h.1.1.2, h.1.2, h.2⟩

theorem wfAll_chainTopFiles {c : FS} (hwf : wfAll c = true) {f : FileRec}
    (h : f ∈ chainTopFiles c) : goodName f.name = true := by
  induction c with
  | none => simp [chainTopFiles] at h
  | file n b a s ih =>
    rw [chainTopFiles] at h
    rcases List.mem_cons.mp h with h2 | h2
    · rw [h2]
      exact (wfAll_file hwf).1
    · exact ih (wfAll_file hwf).2 h2
  | dir n r ch s ih1 ih2 =>
    rw [chainTopFiles] at h
    exact ih2 (wfAll_dir hwf).2.2.2 h

theorem wfAll_subdirFiles_good {c : FS} (hwf : wfAll c = true) :
    ∀ {p : List String × FileRec}, p ∈ subdirFiles c →
      ∀ s2 ∈ p.1 ++ [p.2.name], goodName s2 = true := by
  induction c with
  | none => intro p h; simp [subdirFiles] at h
  | file n b a s ih =>
    intro p h
    rw [subdirFiles] at h
    exact ih (wfAll_file hwf).2 h
  | dir n r ch s ih1 ih2 =>
    intro p h
    obtain ⟨hg, hnd, hwch, hws⟩ := wfAll_dir hwf
    rw [subdirFiles] at h
    rcases List.mem_append.mp h with h2 | h2
    · rcases List.mem_append.mp h2 with h3 | h3
      · obtain ⟨f, hf, rfl⟩ := List.mem_map.mp h3
        intro s2 hs2
        rcases List.mem_append.mp hs2 with h4 | h4
        · rw [List.mem_singleton.mp h4]
          exact hg
        · rw [List.mem_singleton.mp h4]
          exact wfAll_chainTopFiles hwch hf
      · obtain ⟨q, hq, rfl⟩ := List.mem_map.mp h3
        intro s2 hs2
        have hs3 : s2 = n ∨ s2 ∈ q.1 ∨ s2 = q.2.name := by simpa using hs2
        rcases hs3 with h4 | h4 | h4
        · rw [h4]
          exact hg
        · exact ih1 hwch hq s2 (List.mem_append_left _ h4)
        · exact ih1 hwch hq s2 (List.mem_append_right _ (by simp [h4]))
    · exact ih2 hws h2

theorem treeFiles_good {c : FS} (hwf : wfAll c = true)
    {p : List String × FileRec} (h : p ∈ treeFiles c) :
    ∀ s2 ∈ p.1 ++ [p.2.name], goodName s2 = true := by
  rcases List.mem_append.mp h with h2 | h2
  · obtain ⟨f, hf, rfl⟩ := List.mem_map.mp h2
    intro s2 hs2
    have hs3 : s2 = f.name := by simpa using hs2
    rw [hs3]
    exact wfAll_chainTopFiles hwf hf
  · exact wfAll_subdirFiles_good hwf h2

theorem treeFiles_file (n : String) (b : List Nat) (a : Bool) (s : FS) :
    treeFiles (FS.file n b a s) =
      (([] : List String), { name := n, bytes := b, accessible := a : FileRec })
        :: treeFiles s := by
  simp [treeFiles, chainTopFiles, subdirFiles]

theorem treeFiles_dir (n : String) (r : Bool) (ch s : FS) :
    treeFiles (FS.dir n r ch s) =
      (chainTopFiles s).map (fun f => ([], f))
      ++ (((chainTopFiles ch).map (fun f => ([n], f))
          ++ (subdirFiles ch).map (fun p => (n :: p.1, p.2)))
          ++ subdirFiles s) := by
  simp [treeFiles, chainTopFiles, subdirFiles]

theorem block_addr (n : String) (ch : FS) :
    (((chainTopFiles ch).map (fun f => ([n], f))
      ++ (subdirFiles ch).map (fun p => (n :: p.1, p.2))).map addrOf)
    = ((treeFiles ch).map addrOf).map (n :: ·) := by
  simp only [treeFiles, List.map_append, List.map_map]
  congr 1

theorem addr_shape {c : FS} {a : List String}
    (h : a ∈ (treeFiles c).map addrOf) :
    ∃ hd t, a = hd :: t ∧ hd ∈ chainNames c := by
  obtain ⟨p, hp, rfl⟩ := List.mem_map.mp h
  rcases List.mem_append.mp hp with h2 | h2
  · obtain ⟨f, hf, rfl⟩ := List.mem_map.mp h2
    exact ⟨f.name, [], by simp [addrOf], chainTopFiles_name_mem hf⟩
  · obtain ⟨hd, t, he, hm⟩ := subdirFiles_head_mem h2
    exact ⟨hd, t ++ [p.2.name], by simp [addrOf, he], hm⟩

theorem addr_nodup {c : FS} (hn : (chainNames c).Nodup) (hwf : wfAll c = true) :
    ((treeFiles c).map addrOf).Nodup := by
  induction c with
  | none => simp [treeFiles, chainTopFiles, subdirFiles]
  | file n b a s ih =>
    have hcons := List.nodup_cons.mp (show (n :: chainNames s).Nodup from hn)
    rw [treeFiles_file, List.map_cons]
    rw [List.nodup_cons]
    refine ⟨?_, ih hcons.2 (wfAll_file hwf).2⟩
    intro hmem
    obtain ⟨hd, t, he, hm⟩ := addr_shape hmem
    have : hd = n := by
      have : addrOf ([], { name := n, bytes := b, accessible := a }) = [n] := by
        simp [addrOf]
      rw [this] at he
      injection he with h1 h2
      exact h1.symm
    exact hcons.1 (this ▸ hm)
  | dir n r ch s ih1 ih2 =>
    obtain ⟨hg, hnd, hwch, hws⟩ := wfAll_dir hwf
    have hcons := List.nodup_cons.mp (show (n :: chainNames s).Nodup from hn)
    rw [treeFiles_dir, List.map_append, List.map_append, block_addr]
    have hperm := List.perm_append_comm_assoc
      (((chainTopFiles s).map (fun f => (([] : List String), f))).map addrOf)
      (((treeFiles ch).map addrOf).map (n :: ·))
      ((subdirFiles s).map addrOf)
    rw [hperm.nodup_iff]
    rw [List.nodup_append]
    have hts : ((treeFiles s).map addrOf).Nodup := ih2 hcons.2 hws
    rw [treeFiles, List.map_append] at hts
    refine ⟨?_, hts, ?_⟩
    · exact (ih1 hnd hwch).map (fun x y hxy => by injection hxy)
    · intro a ha hb
      obtain ⟨t, ht, rfl⟩ := List.mem_map.mp ha
      have htne : t ≠ [] := by
        obtain ⟨p, hp, rfl⟩ := List.mem_map.mp ht
        simp [addrOf]
      rcases List.mem_append.mp hb with h2 | h2
      · obtain ⟨q, hq, heq⟩ := List.mem_map.mp h2
        obtain ⟨f, hf, rfl⟩ := List.mem_map.mp hq
        have : addrOf ([], f) = [f.name] := by simp [addrOf]
        rw [this] at heq
        injection heq with e1 e2
        exact htne e2.symm
      · obtain ⟨q, hq, heq⟩ := List.mem_map.mp h2
        obtain ⟨hd, t2, he, hm⟩ := subdirFiles_head_mem hq
        have : addrOf q = hd :: (t2 ++ [q.2.name]) := by simp [addrOf, he]
        rw [this] at heq
        injection heq with e1 e2
        exact hcons.1 (e1 ▸ hm)

theorem treeFiles_addr_inj {c : FS} (hn : (chainNames c).Nodup)
    (hwf : wfAll c = true) {p q : List String × FileRec}
    (hp : p ∈ treeFiles c) (hq : q ∈ treeFiles c)
    (he : addrOf p = addrOf q) : p = q :=
  List.inj_on_of_nodup_map (addr_nodup hn hwf) hp hq he

/-! ## The collected inventory has pairwise distinct paths -/

theorem scanFiles_paths_sublist (cfg : ScanConfig) (rel : String) (c : FS) :
    ((scanFiles cfg rel c).map (fun e => e.path)).Sublist
      ((chainTopFiles c).map (fun f => childRel rel f.name)) := by
  induction c with
  | none => simp [scanFiles, chainTopFiles]
  | file n b a s ih =>
    rw [scanFiles, chainTopFiles, List.map_append, List.map_cons]
    cases hsf : scanFile cfg rel n b a with
    | none =>
      simp only [Option.toList, List.nil_append, List.map_nil]
      exact ih.cons _
    | some e =>
      have he : e.path = childRel rel n := by
        rw [(scanFile_some_spec hsf).1]
      simp only [Option.toList, List.singleton_append, List.map_cons]
      rw [he]
      exact ih.cons₂ _
  | dir n r ch s ih1 ih2 =>
    rw [scanFiles, chainTopFiles]
    exact ih2

theorem visitSubdirs_paths_sublist (cfg : ScanConfig) (c : FS) :
    ∀ rel, ((visitSubdirs cfg rel c).map (fun e => e.path)).Sublist
      ((subdirFiles c).map (fun p => childRel (pathUnder rel p.1) p.2.name)) := by
  induction c with
  | none => intro rel; simp [visitSubdirs, subdirFiles]
  | file n b a s ih =>
    intro rel
    rw [visitSubdirs, subdirFiles]
    exact ih rel
  | dir n r ch s ih1 ih2 =>
    intro rel
    rw [visitSubdirs, subdirFiles, List.map_append, List.map_append]
    refine List.Sublist.append ?_ (ih2 rel)
    by_cases hig : cfg.ignoredDirs.contains n
    · rw [if_pos hig]
      simp only [List.map_nil]
      exact List.nil_sublist _
    · rw [if_neg hig]
      by_cases hc : (r && !excludedHit cfg.excludedFolders (childRel rel n)) = true
      · rw [if_pos hc, List.map_append, List.map_append]
        refine List.Sublist.append ?_ ?_
        · have hs := scanFiles_paths_sublist cfg (childRel rel n) ch
          rw [List.map_map]
          exact hs
        · have hs := ih1 (childRel rel n)
          rw [List.map_map]
          exact hs
      · rw [if_neg hc]
        simp only [List.map_nil]
        exact List.nil_sublist _

theorem wfRoot_spec {c : FS} (h : wfRoot c = true) :
    (chainNames c).Nodup ∧ wfAll c = true := by
  unfold wfRoot at h
  simpa [Bool.and_eq_true] using h

theorem treeFiles_key_eq {es : FS} (hall : wfAll es = true)
    {p : List String × FileRec} (hp : p ∈ treeFiles es) :
    childRel (pathUnder "" p.1) p.2.name = joinSegs (addrOf p) := by
  have hgood := treeFiles_good hall hp
  rw [← pathUnder_concat]
  rw [pathUnder_root _ hgood]
  rfl

theorem collectEntries_paths_nodup (cfg : ScanConfig) (r : Bool) {es : FS}
    (hwf : wfRoot es = true) :
    ((collectEntries cfg (RootPath.dirAt r es)).map (fun e => e.path)).Nodup := by
  obtain ⟨hn, hall⟩ := wfRoot_spec hwf
  have hce : collectEntries cfg (RootPath.dirAt r es)
      = if r && !excludedHit cfg.excludedFolders "" then
          scanFiles cfg "" es ++ visitSubdirs cfg "" es
        else [] := rfl
  rw [hce]
  by_cases hc : (r && !excludedHit cfg.excludedFolders "") = true
  · rw [if_pos hc, List.map_append]
    have hsub := List.Sublist.append (scanFiles_paths_sublist cfg "" es)
      (visitSubdirs_paths_sublist cfg es "")
    refine hsub.nodup ?_
    have hkeys :
        ((chainTopFiles es).map (fun f => childRel "" f.name)
          ++ (subdirFiles es).map (fun p => childRel (pathUnder "" p.1) p.2.name))
        = (treeFiles es).map (fun p => childRel (pathUnder "" p.1) p.2.name) := by
      rw [treeFiles, List.map_append, List.map_map]
      rfl
    rw [hkeys]
    have haddr : List.Pairwise (fun p q => addrOf p ≠ addrOf q) (treeFiles es) := by
      have h2 := addr_nodup hn hall
      rw [List.Nodup, List.pairwise_map] at h2
      exact h2
    have hkey : List.Pairwise
        (fun p q => childRel (pathUnder "" p.1) p.2.name
          ≠ childRel (pathUnder "" q.1) q.2.name) (treeFiles es) := by
      refine haddr.imp_of_mem ?_
      intro p q hp hq hne heq
      apply hne
      rw [treeFiles_key_eq hall hp, treeFiles_key_eq hall hq] at heq
      exact joinSegs_inj (by simpa [addrOf] using treeFiles_good hall hp)
        (by simpa [addrOf] using treeFiles_good hall hq) heq
    rw [List.Nodup, List.pairwise_map]
    exact hkey
  · rw [if_neg hc]
    simp

/-- C1: for every scan of a fixed well-formed filesystem snapshot, the
returned inventory is sorted strictly ascending by path (code-point
lexicographic order on the forward-slash relative path), so in particular
no two entries share a path. -/
theorem c1_scan_sorted_strictly_by_path (cfg : ScanConfig) (r : Bool) (es : FS)
    (hwf : wfRoot es = true) :
    List.Pairwise (fun a b : FileEntry => a.path < b.path)
      (scan_repository cfg (RootPath.dirAt r es)) := by
  have hnd := collectEntries_paths_nodup cfg r hwf
  have hsorted : List.Pairwise pathLe
      (scan_repository cfg (RootPath.dirAt r es)) :=
    List.sorted_insertionSort pathLe (collectEntries cfg (RootPath.dirAt r es))
  have hperm : (scan_repository cfg (RootPath.dirAt r es)).Perm
      (collectEntries cfg (RootPath.dirAt r es)) :=
    List.perm_insertionSort pathLe _
  have hne0 : List.Pairwise (fun a b : FileEntry => a.path ≠ b.path)
      (collectEntries cfg (RootPath.dirAt r es)) := by
    rw [List.Nodup, List.pairwise_map] at hnd
    exact hnd
  have hne : List.Pairwise (fun a b : FileEntry => a.path ≠ b.path)
      (scan_repository cfg (RootPath.dirAt r es)) :=
    (hperm.pairwise_iff (fun h heq => h heq.symm)).mpr hne0
  refine (hsorted.and hne).imp ?_
  rintro a b ⟨hle, hane⟩
  have hdne : a.path.data ≠ b.path.data := fun h => hane (str_ext h)
  have := lt_of_lexLe_of_ne hle hdne
  exact String.lt_iff_toList_lt.mpr this

theorem mem_treeFiles_of_access {c : FS} {p : List String × FileRec}
    (h : p ∈ accessFiles c) : p ∈ treeFiles c := by
  rcases List.mem_append.mp h with h2 | h2
  · exact List.mem_append_left _ h2
  · exact mem_treeFiles_sub (mem_subdirFiles_of_access h2)

theorem scan_mem_sound {cfg : ScanConfig} {r : Bool} {es : FS} {e : FileEntry}
    (h : e ∈ scan_repository cfg (RootPath.dirAt r es)) :
    ∃ p ∈ accessFiles es,
      e.path = childRel (pathUnder "" p.1) p.2.name ∧
      p.2.accessible = true ∧
      is_text_file p.2.bytes p.2.accessible = true ∧
      p.2.bytes.length ≤ cfg.maxFileSize := by
  have hmem : e ∈ collectEntries cfg (RootPath.dirAt r es) :=
    (List.perm_insertionSort pathLe _).mem_iff.mp h
  have hce : collectEntries cfg (RootPath.dirAt r es)
      = if r && !excludedHit cfg.excludedFolders "" then
          scanFiles cfg "" es ++ visitSubdirs cfg "" es
        else [] := rfl
  rw [hce] at hmem
  by_cases hc : (r && !excludedHit cfg.excludedFolders "") = true
  · rw [if_pos hc] at hmem
    rcases List.mem_append.mp hmem with h2 | h2
    · obtain ⟨f, hf, hsf⟩ := scanFiles_sound h2
      obtain ⟨he, hacc, htext, hsize, hext⟩ := scanFile_some_spec hsf
      refine ⟨([], f), List.mem_append_left _ (List.mem_map_of_mem _ hf),
        ?_, hacc, htext, hsize⟩
      rw [he]
      rfl
    · obtain ⟨p, hp, hsf⟩ := visitSubdirs_sound h2
      obtain ⟨he, hacc, htext, hsize, hext⟩ := scanFile_some_spec hsf
      refine ⟨p, List.mem_append_right _ hp, ?_, hacc, htext, hsize⟩
      rw [he]
  · rw [if_neg hc] at hmem
    simp at hmem

theorem scan_no_entry_at {cfg : ScanConfig} {r : Bool} {es : FS}
    (hwf : wfRoot es = true) {dsegs : List String} {f : FileRec}
    (hmem : (dsegs, f) ∈ treeFiles es)
    (hbad : is_text_file f.bytes f.accessible = false ∨ f.accessible = false) :
    ∀ e ∈ scan_repository cfg (RootPath.dirAt r es),
      e.path ≠ joinSegs (dsegs ++ [f.name]) := by
  obtain ⟨hn, hall⟩ := wfRoot_spec hwf
  intro e he heq
  obtain ⟨p, hp, hpath, hacc, htext, hsize⟩ := scan_mem_sound he
  have hpt := mem_treeFiles_of_access hp
  have hkey : e.path = joinSegs (addrOf p) := by
    rw [hpath]
    exact treeFiles_key_eq hall hpt
  have haddr : addrOf p = addrOf (dsegs, f) := by
    show addrOf p = dsegs ++ [f.name]
    refine joinSegs_inj ?_ ?_ (by rw [← hkey, heq])
    · simpa [addrOf] using treeFiles_good hall hpt
    · simpa [addrOf] using treeFiles_good hall hmem
  have hpeq : p = (dsegs, f) := treeFiles_addr_inj hn hall hpt hmem haddr
  rcases hbad with hb | hb
  · rw [hpeq] at htext
    simp [hb] at htext
  · rw [hpeq] at hacc
    simp [hb] at hacc

theorem is_text_file_of_null {bytes : List Nat} {acc : Bool}
    (h : 0 ∈ bytes.take 1024) : is_text_file bytes acc = false := by
  have hc : (bytes.take 1024).contains 0 = true := by simpa using h
  cases acc with
  | false => rfl
  | true => simp [is_text_file, hc, h]

/-- C2: a file whose first 1024 bytes contain a 0x00 byte is classified as
binary by the text detector, and no entry of any scan of a well-formed
snapshot carries its path, regardless of extension or configuration. -/
theorem c2_null_byte_never_in_inventory (cfg : ScanConfig) (r : Bool) (es : FS)
    (hwf : wfRoot es = true) (dsegs : List String) (f : FileRec)
    (hmem : (dsegs, f) ∈ treeFiles es) (hnull : 0 ∈ f.bytes.take 1024) :
    is_text_file f.bytes f.accessible = false ∧
    ∀ e ∈ scan_repository cfg (RootPath.dirAt r es),
      e.path ≠ joinSegs (dsegs ++ [f.name]) :=
  ⟨is_text_file_of_null hnull,
   scan_no_entry_at hwf hmem (Or.inl (is_text_file_of_null hnull))⟩

/-- C5: a scan is a hard, reported error exactly when the root path is not
an existing directory; a directory root always yields a result, every
individual file the OS refuses to stat or open is silently excluded from
it, and every inventory entry comes from an accessible file reached
through readable directories only. -/
theorem c5_root_error_iff_item_errors_skipped (cfg : ScanConfig) :
    (∀ root : RootPath,
      (∃ msg, scanChecked cfg root = Except.error msg) ↔
        ∀ r es, root ≠ RootPath.dirAt r es) ∧
    (∀ r es, scanChecked cfg (RootPath.dirAt r es)
        = Except.ok (scan_repository cfg (RootPath.dirAt r es))) ∧
    (∀ r es, wfRoot es = true →
      ∀ dsegs (f : FileRec), (dsegs, f) ∈ treeFiles es → f.accessible = false →
        ∀ e ∈ scan_repository cfg (RootPath.dirAt r es),
          e.path ≠ joinSegs (dsegs ++ [f.name])) ∧
    (∀ r es e, e ∈ scan_repository cfg (RootPath.dirAt r es) →
      ∃ p ∈ accessFiles es, p.2.accessible = true ∧
        e.path = childRel (pathUnder "" p.1) p.2.name) := by
  refine ⟨?_, fun r es => rfl, ?_, ?_⟩
  · intro root
    cases root with
    | missing => simp [scanChecked]
    | fileAt n b => simp [scanChecked]
    | dirAt r es =>
      constructor
      · rintro ⟨msg, hmsg⟩
        simp [scanChecked] at hmsg
      · intro hne
        exact absurd rfl (hne r es)
  · intro r es hwf dsegs f hmem hacc
    exact scan_no_entry_at hwf hmem (Or.inr hacc)
  · intro r es e he
    obtain ⟨p, hp, hpath, hacc, htext, hsize⟩ := scan_mem_sound he
    exact ⟨p, hp, hacc, hpath⟩

/-! ## The includedFolders variant (spec-modelled) -/

theorem scanI_mem_sound {cfg : ScanConfig} {incl : List String} {r : Bool}
    {es : FS} {e : FileEntry} (h : e ∈ scanI cfg incl (RootPath.dirAt r es)) :
    ∃ p ∈ accessFiles es,
      e.path = childRel (pathUnder "" p.1) p.2.name ∧
      excludedHit cfg.excludedFolders (pathUnder "" p.1) = false ∧
      (pathUnder "" p.1 = ""
        ∨ (incl.isEmpty || includedHit incl (pathUnder "" p.1)) = true) := by
  have hmem : e ∈ (if r && !excludedHit cfg.excludedFolders "" then
      scanFiles cfg "" es ++ visitSubdirsI cfg incl "" es else []) :=
    (List.perm_insertionSort pathLe _).mem_iff.mp h
  by_cases hc : (r && !excludedHit cfg.excludedFolders "") = true
  · rw [if_pos hc] at hmem
    have hex0 : excludedHit cfg.excludedFolders "" = false := by
      have hc2 := hc
      simp only [Bool.and_eq_true, Bool.not_eq_true'] at hc2
      exact hc2.2
    rcases List.mem_append.mp hmem with h2 | h2
    · obtain ⟨f, hf, hsf⟩ := scanFiles_sound h2
      obtain ⟨he, hacc, htext, hsize, hext⟩ := scanFile_some_spec hsf
      refine ⟨([], f), List.mem_append_left _ (List.mem_map_of_mem _ hf),
        by rw [he]; rfl, hex0, Or.inl rfl⟩
    · obtain ⟨p, hp, hsf, hex, hin⟩ := visitSubdirsI_sound h2
      obtain ⟨he, hacc, htext, hsize, hext⟩ := scanFile_some_spec hsf
      exact ⟨p, List.mem_append_right _ hp, by rw [he], hex, Or.inr hin⟩
  · rw [if_neg hc] at hmem
    simp at hmem

theorem prefix_take_left {p a b : List Char} (h : p <+: a ++ b)
    (hl : p.length ≤ a.length) : p <+: a := by
  obtain ⟨t, ht⟩ := h
  refine ⟨t.take (a.length - p.length), ?_⟩
  have h2 : (a ++ b).take a.length = a := by simp
  rw [← ht, List.take_append_eq_append_take, List.take_of_length_le hl] at h2
  exact h2

/-- Splitting a path at its last separator is unique: a path decomposes in
exactly one way into a containing path and a legal (nonempty, slash-free)
entry name. -/
theorem childRel_decomp_unique {d n d2 n2 : String}
    (hn : goodName n = true) (hn2 : goodName n2 = true)
    (h : childRel d n = childRel d2 n2) : d = d2 ∧ n = n2 := by
  have hs1 := goodName_spec hn
  have hs2 := goodName_spec hn2
  have hdata := congrArg String.data h
  rw [data_childRel, data_childRel] at hdata
  by_cases hd : d = "" <;> by_cases hd2 : d2 = ""
  · rw [if_pos hd, if_pos hd2] at hdata
    exact ⟨by rw [hd, hd2], str_ext hdata⟩
  · rw [if_pos hd, if_neg hd2] at hdata
    refine absurd ?_ hs1.2
    rw [hdata]
    exact List.mem_append_right _ (List.mem_cons_self _ _)
  · rw [if_neg hd, if_pos hd2] at hdata
    refine absurd ?_ hs2.2
    rw [← hdata]
    exact List.mem_append_right _ (List.mem_cons_self _ _)
  · rw [if_neg hd, if_neg hd2] at hdata
    have hrev : n.data.reverse ++ '/' :: d.data.reverse
        = n2.data.reverse ++ '/' :: d2.data.reverse := by
      have := congrArg List.reverse hdata
      simpa [List.reverse_append, List.reverse_cons, List.append_assoc]
        using this
    have h1 : '/' ∉ n.data.reverse := fun hm => hs1.2 (List.mem_reverse.mp hm)
    have h2 : '/' ∉ n2.data.reverse := fun hm => hs2.2 (List.mem_reverse.mp hm)
    obtain ⟨ha, hb⟩ := slash_split h1 h2 hrev
    exact ⟨str_ext (List.reverse_inj.mp hb), str_ext (List.reverse_inj.mp ha)⟩

/-- C3 amended (spec-modelled includedFolders): exclusion always takes
precedence, so no kept file lies under an overlapping excluded-and-included
folder; and when includedFolders is non-empty, every kept file, split at its
last separator into its containing path d and its entry name n (a split the
third conjunct pins as the only one with a legal entry name), sits either
directly in the scan root (d = "", which the spec exempts from the inclusion
test) or in a folder d that matches an includedFolders entry or descends
from one. -/
theorem c3_exclusion_precedence_inclusion_restricts (cfg : ScanConfig)
    (incl : List String) (r : Bool) (es : FS) (hwf : wfRoot es = true) :
    (∀ folder ∈ cfg.excludedFolders, folder ∈ incl →
      ∀ e ∈ scanI cfg incl (RootPath.dirAt r es),
        startswith e.path (folder ++ "/") = false) ∧
    (incl ≠ [] →
      ∀ e ∈ scanI cfg incl (RootPath.dirAt r es),
        ∃ d n, goodName n = true ∧ e.path = childRel d n ∧
          (∀ d2 n2, goodName n2 = true → e.path = childRel d2 n2 → d2 = d) ∧
          (d = "" ∨ includedHit incl d = true)) := by
  obtain ⟨hn, hall⟩ := wfRoot_spec hwf
  constructor
  · intro folder hfex hfin e he
    obtain ⟨p, hp, hpath, hex, hin⟩ := scanI_mem_sound he
    have hex2 : ((pathUnder "" p.1) == folder
        || startswith (pathUnder "" p.1) (folder ++ "/")) = false := by
      have := List.any_eq_false.mp hex folder hfex
      simpa using this
    have hne : ((pathUnder "" p.1) == folder) = false := by
      rcases Bool.or_eq_false_iff.mp hex2 with ⟨h1, h2⟩
      exact h1
    have hnpre : startswith (pathUnder "" p.1) (folder ++ "/") = false := by
      rcases Bool.or_eq_false_iff.mp hex2 with ⟨h1, h2⟩
      exact h2
    cases hcon : startswith e.path (folder ++ "/") with
    | false => rfl
    | true =>
      exfalso
      have hpre : (folder ++ "/").data <+: e.path.data :=
        (startswith_iff _ _).mp hcon
      have hgood := treeFiles_good hall (mem_treeFiles_of_access hp)
      have hng : goodName p.2.name = true :=
        hgood p.2.name (List.mem_append_right _ (by simp))
      have hnslash : '/' ∉ p.2.name.data := (goodName_spec hng).2
      have hfdata : (folder ++ "/").data = folder.data ++ ['/'] := by
        rw [String.data_append]
      rw [hfdata, hpath, data_childRel] at hpre
      by_cases hdd : pathUnder "" p.1 = ""
      · rw [if_pos hdd] at hpre
        exact hnslash (hpre.subset (by simp))
      · rw [if_neg hdd] at hpre
        obtain ⟨t, ht⟩ := hpre
        have ht2 : (pathUnder "" p.1).data ++ '/' :: p.2.name.data
            = folder.data ++ '/' :: t := by
          rw [← ht]
          simp
        have hlen : folder.data.length ≤ (pathUnder "" p.1).data.length :=
          slash_len_le hnslash ht2
        rcases Nat.lt_or_ge folder.data.length (pathUnder "" p.1).data.length
          with hlt | hge
        · have hpre2 : folder.data ++ ['/']
              <+: (pathUnder "" p.1).data ++ '/' :: p.2.name.data :=
            ⟨t, by rw [ht2]; simp⟩
          have hpre3 : folder.data ++ ['/'] <+: (pathUnder "" p.1).data :=
            prefix_take_left hpre2 (by rw [List.length_append]; exact hlt)
          have : startswith (pathUnder "" p.1) (folder ++ "/") = true :=
            (startswith_iff _ _).mpr (by rw [hfdata]; exact hpre3)
          rw [this] at hnpre
          exact Bool.noConfusion hnpre
        · have hleq : folder.data.length = (pathUnder "" p.1).data.length :=
            Nat.le_antisymm hlen hge
          have hfd : folder.data = (pathUnder "" p.1).data :=
            (List.append_inj ht2.symm hleq).1
          have : (pathUnder "" p.1) = folder := (str_ext hfd).symm
          rw [this] at hne
          simp at hne
  · intro hincl e he
    obtain ⟨p, hp, hpath, hex, hin⟩ := scanI_mem_sound he
    have hgood := treeFiles_good hall (mem_treeFiles_of_access hp)
    have hng : goodName p.2.name = true :=
      hgood p.2.name (List.mem_append_right _ (by simp))
    refine ⟨pathUnder "" p.1, p.2.name, hng, hpath, ?_, ?_⟩
    · intro d2 n2 hgn2 hpath2
      exact (childRel_decomp_unique hgn2 hng (hpath2.symm.trans hpath)).1
    · rcases hin with h2 | h2
      · exact Or.inl h2
      · right
        have hie : incl.isEmpty = false := by
          cases hi : incl.isEmpty with
          | false => rfl
          | true => exact absurd (List.isEmpty_iff.mp hi) hincl
        rw [hie] at h2
        simpa using h2

/-! ## Round trip of the string escaper through the reader -/

theorem hexVal_hexDigit {d : Nat} (h : d < 16) : hexVal (hexDigit d) = Option.some d := by
  interval_cases d <;> rfl

theorem char_valid_ranges (c : Char) :
    c.toNat < 55296 ∨ (57343 < c.toNat ∧ c.toNat < 1114112) := by
  have h := c.valid
  simp only [UInt32.isValidChar, Nat.isValidChar] at h
  rcases h with h | h
  · exact Or.inl h
  · exact Or.inr ⟨h.1, h.2⟩

theorem parseHex4_hex4 {n : Nat} (h : n < 65536) (cs : List Char) :
    parseHex4 (hex4 n ++ cs) = Option.some (n, cs) := by
  have e1 := hexVal_hexDigit (show n / 4096 % 16 < 16 by omega)
  have e2 := hexVal_hexDigit (show n / 256 % 16 < 16 by omega)
  have e3 := hexVal_hexDigit (show n / 16 % 16 < 16 by omega)
  have e4 := hexVal_hexDigit (show n % 16 < 16 by omega)
  simp only [hex4, List.cons_append, List.nil_append, parseHex4, e1, e2, e3, e4]
  exact congrArg (fun m => Option.some (m, cs)) (by omega)

theorem parseUnicodeEscape_plain {n : Nat} (cs : List Char) (hn : n < 65536)
    (h1 : ¬(55296 ≤ n ∧ n ≤ 56319)) (h2 : ¬(56320 ≤ n ∧ n ≤ 57343)) :
    parseUnicodeEscape (hex4 n ++ cs) = Option.some (Char.ofNat n, cs) := by
  rw [parseUnicodeEscape.eq_def, parseHex4_hex4 hn]
  simp only
  rw [if_neg h1, if_neg h2]

theorem parseUnicodeEscape_pair {n : Nat} (cs : List Char) (hn : 65536 ≤ n)
    (hup : n < 1114112) :
    parseUnicodeEscape (hex4 (55296 + (n - 65536) / 1024)
        ++ ('\\' :: 'u' :: (hex4 (56320 + (n - 65536) % 1024) ++ cs)))
      = Option.some (Char.ofNat n, cs) := by
  have hhiv : 55296 + (n - 65536) / 1024 < 65536 := by omega
  have hlov : 56320 + (n - 65536) % 1024 < 65536 := by omega
  rw [parseUnicodeEscape.eq_def, parseHex4_hex4 hhiv]
  simp only
  rw [if_pos (by constructor <;> omega)]
  rw [if_pos (⟨trivial, trivial⟩ : True ∧ True)]
  rw [parseHex4_hex4 hlov]
  simp only
  rw [if_pos (by constructor <;> omega)]
  exact congrArg (fun c2 => Option.some (c2, cs)) (congrArg Char.ofNat (by omega))

theorem pe_quote (cs : List Char) : parseEscape ('"' :: cs) = Option.some ('"', cs) := by
  simp [parseEscape]

theorem pe_back (cs : List Char) : parseEscape ('\\' :: cs) = Option.some ('\\', cs) := by
  simp [parseEscape]

theorem pe_b (cs : List Char) : parseEscape ('b' :: cs) = Option.some (Char.ofNat 8, cs) := by
  simp [parseEscape]

theorem pe_f (cs : List Char) : parseEscape ('f' :: cs) = Option.some (Char.ofNat 12, cs) := by
  simp [parseEscape]

theorem pe_n (cs : List Char) : parseEscape ('n' :: cs) = Option.some ('\n', cs) := by
  simp [parseEscape]

theorem pe_r (cs : List Char) : parseEscape ('r' :: cs) = Option.some (Char.ofNat 13, cs) := by
  simp [parseEscape]

theorem pe_t (cs : List Char) : parseEscape ('t' :: cs) = Option.some ('\t', cs) := by
  simp [parseEscape]

theorem pe_u (cs : List Char) : parseEscape ('u' :: cs) = parseUnicodeEscape cs := by
  simp [parseEscape]

theorem psb_close (fuel : Nat) (cs : List Char) :
    parseStringBody (fuel + 1) ('"' :: cs) = Option.some ([], cs) := by
  simp [parseStringBody]

theorem psb_esc (fuel : Nat) {cs cs2 : List Char} {d : Char}
    (h : parseEscape cs = Option.some (d, cs2)) :
    parseStringBody (fuel + 1) ('\\' :: cs)
      = (parseStringBody fuel cs2).map (fun r => (d :: r.1, r.2)) := by
  simp [parseStringBody, h]

theorem psb_plain (fuel : Nat) (c : Char) (cs : List Char) (h1 : ¬c = '"')
    (h2 : ¬c = '\\') (h3 : ¬c.toNat < 32) :
    parseStringBody (fuel + 1) (c :: cs)
      = (parseStringBody fuel cs).map (fun r => (c :: r.1, r.2)) := by
  simp only [parseStringBody]
  rw [if_neg h1, if_neg h2, if_neg h3]

theorem parseStringBody_escape (l : List Char) (rest : List Char) :
    forall fuel, l.length < fuel ->
      parseStringBody fuel (l.flatMap escChar ++ '"' :: rest) = Option.some (l, rest) := by
  induction l with
  | nil =>
    intro fuel hf
    match fuel, hf with
    | f + 1, _ =>
      rw [List.flatMap_nil, List.nil_append]
      exact psb_close f rest
  | cons c l ih =>
    intro fuel hf
    match fuel, hf with
    | f + 1, hf =>
      have hlf : l.length < f := by simp at hf; omega
      rw [List.flatMap_cons, List.append_assoc]
      have hofn : Char.ofNat c.toNat = c := Char.ofNat_toNat c
      have hranges := char_valid_ranges c
      simp only [escChar]
      by_cases h34 : c.toNat = 34
      . have hc : c = '"' := by rw [<- hofn, h34]
        rw [if_pos h34, List.cons_append, List.cons_append, List.nil_append,
          psb_esc f (pe_quote _), ih f hlf, hc]
        rfl
      . rw [if_neg h34]
        by_cases h92 : c.toNat = 92
        . have hc : c = '\\' := by rw [<- hofn, h92]
          rw [if_pos h92, List.cons_append, List.cons_append, List.nil_append,
            psb_esc f (pe_back _), ih f hlf, hc]
          rfl
        . rw [if_neg h92]
          by_cases h8 : c.toNat = 8
          . have hc : c = Char.ofNat 8 := by rw [<- hofn, h8]
            rw [if_pos h8, List.cons_append, List.cons_append, List.nil_append,
              psb_esc f (pe_b _), ih f hlf, hc]
            rfl
          . rw [if_neg h8]
            by_cases h9 : c.toNat = 9
            . have hc : c = '\t' := by rw [<- hofn, h9]
              rw [if_pos h9, List.cons_append, List.cons_append, List.nil_append,
                psb_esc f (pe_t _), ih f hlf, hc]
              rfl
            . rw [if_neg h9]
              by_cases h10 : c.toNat = 10
              . have hc : c = '\n' := by rw [<- hofn, h10]
                rw [if_pos h10, List.cons_append, List.cons_append, List.nil_append,
                  psb_esc f (pe_n _), ih f hlf, hc]
                rfl
              . rw [if_neg h10]
                by_cases h12 : c.toNat = 12
                . have hc : c = Char.ofNat 12 := by rw [<- hofn, h12]
                  rw [if_pos h12, List.cons_append, List.cons_append, List.nil_append,
                    psb_esc f (pe_f _), ih f hlf, hc]
                  rfl
                . rw [if_neg h12]
                  by_cases h13 : c.toNat = 13
                  . have hc : c = Char.ofNat 13 := by rw [<- hofn, h13]
                    rw [if_pos h13, List.cons_append, List.cons_append, List.nil_append,
                      psb_esc f (pe_r _), ih f hlf, hc]
                    rfl
                  . rw [if_neg h13]
                    by_cases hprint : 32 <= c.toNat /\ c.toNat <= 126
                    . rw [if_pos hprint]
                      have hnq : ¬(c = '"') := fun he => h34 (by rw [he]; rfl)
                      have hnb : ¬(c = '\\') := fun he => h92 (by rw [he]; rfl)
                      rw [List.cons_append, List.nil_append,
                        psb_plain f c _ hnq hnb (by omega), ih f hlf]
                      rfl
                    . rw [if_neg hprint]
                      by_cases hbmp : c.toNat <= 65535
                      . rw [if_pos hbmp]
                        have hpe : parseEscape
                            ('u' :: (hex4 c.toNat ++ (l.flatMap escChar ++ '"' :: rest)))
                            = Option.some (c, l.flatMap escChar ++ '"' :: rest) := by
                          rw [pe_u, parseUnicodeEscape_plain _ (by omega)
                            (by omega) (by omega), hofn]
                        simp only [List.cons_append, List.append_assoc]
                        rw [psb_esc f hpe, ih f hlf]
                        rfl
                      . rw [if_neg hbmp]
                        have hup : c.toNat < 1114112 := by omega
                        have hpe : parseEscape
                            ('u' :: (hex4 (55296 + (c.toNat - 65536) / 1024)
                              ++ ('\\' :: 'u' :: (hex4 (56320 + (c.toNat - 65536) % 1024)
                                ++ (l.flatMap escChar ++ '"' :: rest)))))
                            = Option.some (c, l.flatMap escChar ++ '"' :: rest) := by
                          rw [pe_u, parseUnicodeEscape_pair _ (by omega) hup, hofn]
                        simp only [List.cons_append, List.append_assoc]
                        rw [psb_esc f hpe, ih f hlf]
                        rfl

/-! ## Assembling the document round trip -/

theorem skipWs_ws (c : Char) (h : isJsonWs c = true) (cs : List Char) :
    skipWs (c :: cs) = skipWs cs := by
  simp [skipWs, h]

theorem skipWs_not (c : Char) (h : isJsonWs c = false) (cs : List Char) :
    skipWs (c :: cs) = c :: cs := by
  simp [skipWs, h]

theorem skipWs_append (w : List Char) (hw : w.all isJsonWs = true) (cs : List Char) :
    skipWs (w ++ cs) = skipWs cs := by
  induction w with
  | nil => rfl
  | cons c t ih =>
    simp only [List.all_cons, Bool.and_eq_true] at hw
    rw [List.cons_append, skipWs_ws c hw.1, ih hw.2]

theorem escChar_length_pos (c : Char) : 1 ≤ (escChar c).length := by
  rw [escChar.eq_def]
  dsimp only
  split_ifs <;> simp [hex4]

theorem length_le_flatMap_escChar (l : List Char) :
    l.length ≤ (l.flatMap escChar).length := by
  induction l with
  | nil => simp
  | cons c t ih =>
    simp only [List.flatMap_cons, List.length_append, List.length_cons]
    have := escChar_length_pos c
    omega

theorem parseStrLit_ws_quote (w : List Char) (hw : w.all isJsonWs = true)
    (s : String) (rest : List Char) :
    parseStrLit (w ++ '"' :: (s.data.flatMap escChar ++ '"' :: rest))
      = Option.some (s, rest) := by
  have hq : isJsonWs '"' = false := rfl
  have hlen : s.data.length < (s.data.flatMap escChar ++ '"' :: rest).length + 1 := by
    have := length_le_flatMap_escChar s.data
    rw [List.length_append]
    omega
  have hbody := parseStringBody_escape s.data rest
    ((s.data.flatMap escChar ++ '"' :: rest).length + 1) hlen
  simp only [parseStrLit]
  rw [skipWs_append w hw, skipWs_not '"' hq]
  simp only []
  rw [if_pos trivial, hbody]
  rfl

theorem expectChar_cons (d : Char) (h : isJsonWs d = false) (c : Char)
    (cs : List Char) :
    expectChar c (d :: cs) = if d = c then Option.some cs else Option.none := by
  simp only [expectChar, skipWs_not d h]

theorem parseMember_pair (w : List Char) (hw : w.all isJsonWs = true)
    (k v : String) (rest : List Char) :
    parseMember (w ++ '"' :: (k.data.flatMap escChar ++ '"' :: ':' :: ' ' ::
        ('"' :: (v.data.flatMap escChar ++ '"' :: rest))))
      = Option.some ((k, v), rest) := by
  have h1 := parseStrLit_ws_quote w hw k
    (':' :: ' ' :: ('"' :: (v.data.flatMap escChar ++ '"' :: rest)))
  have h2 : parseStrLit (' ' :: '"' :: (v.data.flatMap escChar ++ '"' :: rest))
      = Option.some (v, rest) := parseStrLit_ws_quote [' '] rfl v rest
  simp only [parseMember]
  rw [h1]
  simp only []
  rw [expectChar_cons ':' (by decide), if_pos rfl]
  simp only []
  rw [h2]

theorem jsonItem_data (c : FileContent) :
    (jsonItem c).data =
      ' ' :: ' ' :: ' ' :: ' ' :: lbrace :: '\n' :: ' ' :: ' ' :: ' ' :: ' ' :: ' ' :: ' ' :: '"' ::
      ("path".data.flatMap escChar ++ '"' :: ':' :: ' ' :: '"' ::
      (c.path.data.flatMap escChar ++ '"' :: ',' :: '\n' :: ' ' :: ' ' :: ' ' :: ' ' :: ' ' :: ' ' :: '"' ::
      ("content".data.flatMap escChar ++ '"' :: ':' :: ' ' :: '"' ::
      (c.content.data.flatMap escChar ++ '"' :: '\n' :: ' ' :: ' ' :: ' ' :: ' ' :: rbrace :: [])))) := by
  simp only [jsonItem, jsonQuote, String.data_append, List.cons_append,
    List.append_assoc, List.nil_append]

theorem parseMembersLoop_item (mf : Nat) (c : FileContent) (rest : List Char) :
    parseMembersLoop (mf + 2)
      ('"' :: ("path".data.flatMap escChar ++ '"' :: ':' :: ' ' :: '"' ::
       (c.path.data.flatMap escChar ++ '"' :: ',' :: '\n' :: ' ' :: ' ' :: ' ' :: ' ' :: ' ' :: ' ' :: '"' ::
       ("content".data.flatMap escChar ++ '"' :: ':' :: ' ' :: '"' ::
       (c.content.data.flatMap escChar ++ '"' :: '\n' :: ' ' :: ' ' :: ' ' :: ' ' :: rbrace :: rest)))))
      = Option.some ([("path", c.path), ("content", c.content)], rest) := by
  have h1 := parseMember_pair [] rfl "path" c.path
    (',' :: '\n' :: ' ' :: ' ' :: ' ' :: ' ' :: ' ' :: ' ' :: '"' ::
     ("content".data.flatMap escChar ++ '"' :: ':' :: ' ' :: '"' ::
      (c.content.data.flatMap escChar ++ '"' :: '\n' :: ' ' :: ' ' :: ' ' :: ' ' :: rbrace :: rest)))
  rw [List.nil_append] at h1
  have h2 := parseMember_pair ['\n', ' ', ' ', ' ', ' ', ' ', ' '] (by decide)
    "content" c.content ('\n' :: ' ' :: ' ' :: ' ' :: ' ' :: rbrace :: rest)
  simp only [List.cons_append, List.nil_append] at h2
  have hsk2 : skipWs ('\n' :: ' ' :: ' ' :: ' ' :: ' ' :: rbrace :: rest)
      = rbrace :: rest := by
    rw [skipWs_ws '\n' (by decide), skipWs_ws ' ' (by decide),
      skipWs_ws ' ' (by decide), skipWs_ws ' ' (by decide),
      skipWs_ws ' ' (by decide), skipWs_not rbrace (by decide)]
  simp only [parseMembersLoop]
  rw [h1]
  simp only []
  rw [skipWs_not ',' (by decide)]
  simp only []
  rw [if_pos trivial]
  rw [h2]
  simp only []
  rw [hsk2]
  simp only []
  rw [if_neg (by decide), if_pos trivial]
  rfl

theorem parseStrObj_item (w : List Char) (hw : w.all isJsonWs = true)
    (mf : Nat) (c : FileContent) (rest : List Char) :
    parseStrObj (mf + 2) (w ++ (jsonItem c).data ++ rest)
      = Option.some ([("path", c.path), ("content", c.content)], rest) := by
  rw [jsonItem_data]
  simp only [List.append_assoc, List.cons_append, List.nil_append]
  simp only [parseStrObj]
  rw [skipWs_append w hw, skipWs_ws ' ' (by decide), skipWs_ws ' ' (by decide),
    skipWs_ws ' ' (by decide), skipWs_ws ' ' (by decide),
    skipWs_not lbrace (by decide)]
  simp only []
  rw [if_pos trivial]
  rw [skipWs_ws '\n' (by decide), skipWs_ws ' ' (by decide),
    skipWs_ws ' ' (by decide), skipWs_ws ' ' (by decide),
    skipWs_ws ' ' (by decide), skipWs_ws ' ' (by decide),
    skipWs_ws ' ' (by decide), skipWs_not '"' (by decide)]
  simp only []
  rw [if_neg (by decide)]
  exact parseMembersLoop_item mf c rest

theorem jsonItems_cons_data (c x : FileContent) (l : List FileContent) :
    (jsonItems (c :: x :: l)).data
      = (jsonItem c).data ++ ',' :: '\n' :: (jsonItems (x :: l)).data := by
  show (jsonItem c ++ ",\n" ++ jsonItems (x :: l)).data = _
  rw [String.data_append, String.data_append]
  simp only [List.append_assoc]
  rfl

theorem parseStrObj_ws (w : List Char) (hw : w.all isJsonWs = true)
    (mf : Nat) (cs : List Char) :
    parseStrObj mf (w ++ cs) = parseStrObj mf cs := by
  simp only [parseStrObj, skipWs_append w hw]

theorem parseObjsLoop_ws (w : List Char) (hw : w.all isJsonWs = true)
    (f mf : Nat) (cs : List Char) :
    parseObjsLoop f mf (w ++ cs) = parseObjsLoop f mf cs := by
  cases f with
  | zero => rfl
  | succ f => simp only [parseObjsLoop, parseStrObj_ws w hw]

theorem parseObjsLoop_items (l : List FileContent) (hne : l ≠ []) :
    ∀ f, l.length ≤ f → ∀ (w : List Char), w.all isJsonWs = true →
      ∀ (mf : Nat) (rest : List Char),
      parseObjsLoop f (mf + 2)
          (w ++ (jsonItems l).data ++ '\n' :: ' ' :: ' ' :: ']' :: rest)
        = Option.some
            (l.map (fun c => [("path", c.path), ("content", c.content)]), rest) := by
  induction l with
  | nil => exact absurd rfl hne
  | cons c t ih =>
    intro f hf w hw mf rest
    match f, hf with
    | f + 1, hf =>
      cases t with
      | nil =>
        have hobj := parseStrObj_item w hw mf c ('\n' :: ' ' :: ' ' :: ']' :: rest)
        simp only [parseObjsLoop]
        rw [show jsonItems [c] = jsonItem c from rfl, hobj]
        simp only []
        rw [skipWs_ws '\n' (by decide), skipWs_ws ' ' (by decide),
          skipWs_ws ' ' (by decide), skipWs_not ']' (by decide)]
        simp only []
        rw [if_neg (by decide), if_pos trivial]
        rfl
      | cons x t2 =>
        have hlen : (x :: t2).length ≤ f := by
          simp only [List.length_cons] at hf ⊢
          omega
        have hobj := parseStrObj_item w hw mf c
          (',' :: '\n' :: ((jsonItems (x :: t2)).data ++ '\n' :: ' ' :: ' ' :: ']' :: rest))
        simp only [List.append_assoc] at hobj
        have hrec := ih (by simp) f hlen ['\n'] (by decide) mf rest
        simp only [List.append_assoc, List.cons_append, List.nil_append] at hrec
        simp only [parseObjsLoop]
        rw [jsonItems_cons_data]
        simp only [List.append_assoc, List.cons_append]
        rw [hobj]
        simp only []
        rw [skipWs_not ',' (by decide)]
        simp only []
        rw [if_pos trivial, hrec]
        rfl

theorem parseObjArray_doc (l : List FileContent) (hne : l ≠ []) (f mf : Nat)
    (hf : l.length ≤ f) (rest : List Char) :
    parseObjArray f (mf + 2)
        (' ' :: '[' :: '\n' :: ((jsonItems l).data ++ '\n' :: ' ' :: ' ' :: ']' :: rest))
      = Option.some
          (l.map (fun c => [("path", c.path), ("content", c.content)]), rest) := by
  obtain ⟨c, t, rfl⟩ : ∃ c t, l = c :: t := by
    cases l with
    | nil => exact absurd rfl hne
    | cons c t => exact ⟨c, t, rfl⟩
  have hhead : ∃ X, (jsonItems (c :: t)).data
      = ' ' :: ' ' :: ' ' :: ' ' :: lbrace :: X := by
    cases t with
    | nil =>
      rw [show jsonItems [c] = jsonItem c from rfl, jsonItem_data]
      exact ⟨_, rfl⟩
    | cons x t2 =>
      rw [jsonItems_cons_data, jsonItem_data]
      simp only [List.cons_append, List.append_assoc]
      exact ⟨_, rfl⟩
  obtain ⟨X, hX⟩ := hhead
  have hloop := parseObjsLoop_items (c :: t) hne f hf [] rfl mf rest
  rw [List.nil_append, hX] at hloop
  simp only [List.cons_append] at hloop
  have hws := parseObjsLoop_ws [' ', ' ', ' ', ' '] (by decide) f (mf + 2)
    (lbrace :: (X ++ '\n' :: ' ' :: ' ' :: ']' :: rest))
  simp only [List.cons_append, List.nil_append] at hws
  simp only [parseObjArray]
  rw [skipWs_ws ' ' (by decide), skipWs_not '[' (by decide)]
  simp only []
  rw [if_pos trivial, hX]
  simp only [List.cons_append]
  rw [skipWs_ws '\n' (by decide), skipWs_ws ' ' (by decide),
    skipWs_ws ' ' (by decide), skipWs_ws ' ' (by decide),
    skipWs_ws ' ' (by decide), skipWs_not lbrace (by decide)]
  simp only []
  rw [if_neg (by decide)]
  rw [← hws, hloop]

theorem format_json_data (l : List FileContent) (h : l ≠ []) :
    (format_json l).data =
      lbrace :: '\n' :: ' ' :: ' ' :: '"' ::
        ("repository".data.flatMap escChar ++ '"' :: ':' :: ' ' :: '[' :: '\n' ::
          ((jsonItems l).data ++ '\n' :: ' ' :: ' ' :: ']' :: '\n' :: rbrace :: [])) := by
  have hne : ¬(l.isEmpty = true) := by
    cases l with
    | nil => exact absurd rfl h
    | cons c t => simp
  rw [format_json, if_neg hne]
  simp only [jsonQuote, String.data_append, List.cons_append,
    List.append_assoc, List.nil_append]

theorem length_le_jsonItems (l : List FileContent) :
    l.length ≤ (jsonItems l).data.length := by
  induction l with
  | nil => simp [jsonItems]
  | cons c t ih =>
    cases t with
    | nil =>
      rw [show jsonItems [c] = jsonItem c from rfl, jsonItem_data]
      simp only [List.length_cons, List.length_append, List.length_nil]
      omega
    | cons x t2 =>
      rw [jsonItems_cons_data]
      simp only [List.length_append, List.length_cons] at ih ⊢
      omega

/-- C7: serializing any list of (path, content) pairs with the JSON encoder
and re-parsing the document yields the single key "repository" holding, per
input element and in input order, exactly the two fields path and content
with the original values. -/
theorem c7_json_round_trip (contents : List FileContent) :
    parseRepoDoc (format_json contents)
      = Option.some ("repository",
          contents.map (fun c => [("path", c.path), ("content", c.content)])) := by
  cases contents with
  | nil => rfl
  | cons c t =>
    have hne : (c :: t) ≠ ([] : List FileContent) := by simp
    have hdata := format_json_data (c :: t) hne
    have hflen : (c :: t).length ≤ (format_json (c :: t)).data.length + 2 := by
      have h1 := length_le_jsonItems (c :: t)
      rw [hdata]
      simp only [List.length_cons, List.length_append] at h1 ⊢
      omega
    have hkey := parseStrLit_ws_quote ['\n', ' ', ' '] (by decide) "repository"
      (':' :: ' ' :: '[' :: '\n' ::
        ((jsonItems (c :: t)).data ++ '\n' :: ' ' :: ' ' :: ']' :: '\n' :: rbrace :: []))
    simp only [List.cons_append, List.nil_append] at hkey
    have harr := parseObjArray_doc (c :: t) hne
      ((format_json (c :: t)).data.length + 2) ((format_json (c :: t)).data.length)
      hflen ('\n' :: rbrace :: [])
    simp only [parseRepoDoc]
    rw [hdata]
    rw [skipWs_not lbrace (by decide)]
    simp only []
    rw [if_pos trivial]
    rw [hkey]
    simp only []
    rw [expectChar_cons ':' (by decide), if_pos rfl]
    simp only []
    rw [← hdata, harr]
    simp only []
    rw [skipWs_ws '\n' (by decide), skipWs_not rbrace (by decide)]
    simp only []
    rw [if_pos (And.intro trivial (show skipWs [] = [] from rfl))]

/-! ## The remaining claims -/

/-- C4: the compound extension ".min.js" sits in DEFAULT_IGNORED_EXTENSIONS,
but os.path.splitext only ever yields the last suffix, so a file named
"a.min.js" is compared as ".js", never matches the set entry, and lands in
the inventory of a default scan. -/
theorem c4_compound_extension_never_matches :
    DEFAULT_IGNORED_EXTENSIONS.contains ".min.js" = true ∧
    lowerStr (splitextExt "a.min.js") = ".js" ∧
    DEFAULT_IGNORED_EXTENSIONS.contains ".js" = false ∧
    (scan_repository defaultConfig
        (RootPath.dirAt true (FS.file "a.min.js" [120] true FS.none))).map
          (fun e => e.path) = ["a.min.js"] := by
  decide

set_option maxRecDepth 100000 in
/-- C9: a byte string that is entirely valid UTF-8 and holds no null byte
is still classified as binary when a multi-byte character straddles the
1024-byte sample boundary, because the truncated sample no longer
decodes. -/
theorem c9_utf8_boundary_file_misclassified :
    ∃ bytes : List Nat,
      utf8Valid bytes = true ∧
      bytes.contains 0 = false ∧
      is_text_file bytes true = false := by
  refine ⟨List.replicate 1023 97 ++ [195, 169], ?_, ?_, ?_⟩ <;> decide

/-- C10: the size filter of the scan loop is strict: a file whose byte
length equals maxFileSize exactly passes the filter and is inventoried
(given it survives the other filters), while any file strictly larger is
dropped. -/
theorem c10_size_filter_strict (cfg : ScanConfig) (rel name : String)
    (bytes : List Nat)
    (hsize : bytes.length = cfg.maxFileSize)
    (hext : cfg.ignoredExtensions.contains (lowerStr (splitextExt name)) = false)
    (htext : is_text_file bytes true = true) :
    scanFile cfg rel name bytes true
        = Option.some { path := childRel rel name, size := bytes.length,
                        selected := true } ∧
    ∀ bytes2 : List Nat, bytes2.length > cfg.maxFileSize →
      scanFile cfg rel name bytes2 true = Option.none := by
  have hextP : ¬(cfg.ignoredExtensions.contains (lowerStr (splitextExt name))
      = true) := by rw [hext]; decide
  constructor
  · simp only [scanFile]
    rw [if_neg hextP, if_neg (by decide : ¬((!true) = true)), if_neg (by omega),
      if_pos htext]
  · intro bytes2 h2
    simp only [scanFile]
    rw [if_neg hextP, if_neg (by decide : ¬((!true) = true)), if_pos h2]

theorem c10_size_filter_strict_witness :
    scanFile { ignoredDirs := [], ignoredExtensions := [], maxFileSize := 3,
               excludedFolders := [] } "" "a.py" [120, 61, 49] true
        = Option.some { path := childRel "" "a.py", size := 3, selected := true } ∧
    scanFile { ignoredDirs := [], ignoredExtensions := [], maxFileSize := 3,
               excludedFolders := [] } "" "a.py" [120, 61, 49, 10] true
        = Option.none := by
  have h := c10_size_filter_strict
    { ignoredDirs := [], ignoredExtensions := [], maxFileSize := 3,
      excludedFolders := [] } "" "a.py" [120, 61, 49]
    (by decide) (by decide) (by decide)
  exact ⟨h.1, h.2 [120, 61, 49, 10] (by decide)⟩

/-- C6: extraction returns exactly the successfully read entries, as
FileContent records in the input order, and an entry whose read fails is
skipped without disturbing the files before or after it. -/
theorem c6_extraction_order_preserved_failures_skipped
    (readFile : String → Option String) (selected : List FileEntry) :
    extract_files_content readFile selected
        = (selected.filter (fun fi => (readFile fi.path).isSome)).map
            (fun fi => { path := fi.path,
                         content := (readFile fi.path).getD "" }) ∧
    ∀ pre bad post, selected = pre ++ bad :: post →
      readFile bad.path = Option.none →
      extract_files_content readFile selected
        = extract_files_content readFile pre
            ++ extract_files_content readFile post := by
  constructor
  · induction selected with
    | nil => rfl
    | cons fi t ih =>
      cases hr : readFile fi.path with
      | none =>
        simpa [extract_files_content, List.filterMap_cons, List.filter_cons, hr]
          using ih
      | some c =>
        simpa [extract_files_content, List.filterMap_cons, List.filter_cons, hr]
          using ih
  · intro pre bad post hsel hnone
    rw [hsel]
    simp [extract_files_content, List.filterMap_append, List.filterMap_cons, hnone]

theorem c6_extraction_witness :
    extract_files_content
        (fun p => if p == "a.py" then Option.some "x=1"
          else if p == "c.py" then Option.some "y=2" else Option.none)
        [{ path := "a.py", size := 3, selected := true },
         { path := "b.bin", size := 9, selected := true },
         { path := "c.py", size := 3, selected := true }]
      = extract_files_content
          (fun p => if p == "a.py" then Option.some "x=1"
            else if p == "c.py" then Option.some "y=2" else Option.none)
          [{ path := "a.py", size := 3, selected := true }]
        ++ extract_files_content
          (fun p => if p == "a.py" then Option.some "x=1"
            else if p == "c.py" then Option.some "y=2" else Option.none)
          [{ path := "c.py", size := 3, selected := true }] :=
  (c6_extraction_order_preserved_failures_skipped _ _).2
    [{ path := "a.py", size := 3, selected := true }]
    { path := "b.bin", size := 9, selected := true }
    [{ path := "c.py", size := 3, selected := true }] rfl (by decide)

/-- C8 amended: for a format string that is neither empty nor one of
"markdown", "json", "plain", format_output silently falls back to the
Markdown encoder. (The empty string is excluded: Python's `or` treats it
as falsy and substitutes self.output_format, which need not be
markdown.) -/
theorem c8_unknown_format_falls_back_to_markdown (outputFormat : String)
    (contents : List FileContent) (fmt : String)
    (hne : fmt ≠ "") (h1 : fmt ≠ "markdown") (h2 : fmt ≠ "json")
    (h3 : fmt ≠ "plain") :
    format_output outputFormat contents (Option.some fmt)
      = format_markdown contents := by
  simp [format_output, hne, h1, h2, h3]

theorem c8_unknown_format_witness :
    format_output "json" [{ path := "a.py", content := "x=1" }]
        (Option.some "yaml")
      = format_markdown [{ path := "a.py", content := "x=1" }] :=
  c8_unknown_format_falls_back_to_markdown "json"
    [{ path := "a.py", content := "x=1" }] "yaml"
    (by decide) (by decide) (by decide) (by decide)

/-- C8 counterexample: the empty string is not one of the three known
formats, yet format_output does not fall back to Markdown for it: Python's
`format_type or self.output_format` treats "" as falsy, so the instance
format ("json" here) wins and the output is the JSON document. -/
theorem c8_empty_format_counterexample :
    format_output "json" [{ path := "a.py", content := "x=1" }]
        (Option.some "")
      = format_json [{ path := "a.py", content := "x=1" }] ∧
    format_output "json" [{ path := "a.py", content := "x=1" }]
        (Option.some "")
      ≠ format_markdown [{ path := "a.py", content := "x=1" }] := by
  constructor
  · rfl
  · decide

theorem c1_scan_sorted_witness :
    wfRoot fsPair = true ∧
    List.Pairwise (fun a b : FileEntry => a.path < b.path)
      (scan_repository defaultConfig (RootPath.dirAt true fsPair)) :=
  ⟨by decide, c1_scan_sorted_strictly_by_path defaultConfig true fsPair (by decide)⟩

theorem c2_null_byte_witness :
    wfRoot fsNull = true ∧
    (([], ({ name := "evil.bin", bytes := [0], accessible := true } : FileRec))
      ∈ treeFiles fsNull) ∧
    0 ∈ ({ name := "evil.bin", bytes := [0], accessible := true }
      : FileRec).bytes.take 1024 ∧
    (is_text_file ({ name := "evil.bin", bytes := [0], accessible := true }
        : FileRec).bytes
      ({ name := "evil.bin", bytes := [0], accessible := true }
        : FileRec).accessible = false ∧
     ∀ e ∈ scan_repository defaultConfig (RootPath.dirAt true fsNull),
       e.path ≠ joinSegs ([] ++ ["evil.bin"])) :=
  ⟨by decide, by decide, by decide,
   c2_null_byte_never_in_inventory defaultConfig true fsNull (by decide) []
     { name := "evil.bin", bytes := [0], accessible := true }
     (by decide) (by decide)⟩

theorem c5_root_error_witness :
    scanChecked defaultConfig (RootPath.dirAt true FS.none)
        = Except.ok (scan_repository defaultConfig (RootPath.dirAt true FS.none)) ∧
    (∃ msg, scanChecked defaultConfig RootPath.missing = Except.error msg) := by
  have h := c5_root_error_iff_item_errors_skipped defaultConfig
  exact ⟨h.2.1 true FS.none,
    (h.1 RootPath.missing).mpr (fun r es h2 => RootPath.noConfusion h2)⟩

theorem c3_exclusion_inclusion_witness :
    wfRoot fsSrc = true ∧
    ((∀ folder ∈ cfgSrc.excludedFolders, folder ∈ ["src"] →
        ∀ e ∈ scanI cfgSrc ["src"] (RootPath.dirAt true fsSrc),
          startswith e.path (folder ++ "/") = false) ∧
     (["src"] ≠ ([] : List String) →
        ∀ e ∈ scanI cfgSrc ["src"] (RootPath.dirAt true fsSrc),
          ∃ d n, goodName n = true ∧ e.path = childRel d n ∧
            (∀ d2 n2, goodName n2 = true → e.path = childRel d2 n2 → d2 = d) ∧
            (d = "" ∨ includedHit ["src"] d = true))) :=
  ⟨by decide,
   c3_exclusion_precedence_inclusion_restricts cfgSrc ["src"] true fsSrc (by decide)⟩

/-- C3 counterexample to the frozen wording: with "src" both excluded and
included, exclusion does win — no kept file lies under src/ — but the claim
that only files whose containing path is an included folder or a descendant
are kept is false: the root file b.txt survives although its containing
path "" matches no included folder. -/
theorem c3_root_file_counterexample :
    excludedHit cfgSrc.excludedFolders "src" = true ∧
    includedHit ["src"] "" = false ∧
    (scanI cfgSrc ["src"] (RootPath.dirAt true fsSrc)).map (fun e => e.path)
      = ["b.txt"] := by
  decide

end Repo
